import Mathlib

/-!
Verification of the release-automation helper scripts
(`scripts/release/generate_release_highlights_prompt.py` and
`scripts/release/render_release_body.py`).

The Python code is shallowly embedded: Python `str` values are modelled as
Lean `String` (sequences of code points), Python `int` as `Int` (or `Nat`
where the value is known non-negative), JSON-shaped dictionaries as Lean
structures, and fallible functions as `Except`.  Python library routines
used by the scripts (`str.strip`, `str.splitlines`, `fnmatch.fnmatch`,
`textwrap.dedent`, slicing, the handful of concrete regular expressions)
are embedded at the level of character lists; ASCII semantics are used for
case conversion and whitespace, matching every input the scripts handle.
-/

namespace Coder

/-- Whitespace as recognised by Python `str.strip()` and the regex class
backslash-s, restricted to the ASCII range. -/
def isPySpace (c : Char) : Bool :=
  c = ' ' || c = '\t' || c = '\n' || c = '\r' || c = '\x0b' || c = '\x0c'

/-- Leading-whitespace removal on character lists (left half of `str.strip()`). -/
def dropLeadWs (l : List Char) : List Char :=
  l.dropWhile isPySpace

/-- Trailing-whitespace removal on character lists (right half of `str.strip()`). -/
def dropTrailWs (l : List Char) : List Char :=
  (l.reverse.dropWhile isPySpace).reverse

/-- Python `str.strip()` with no arguments, on character lists. -/
def pyStripL (l : List Char) : List Char :=
  dropTrailWs (dropLeadWs l)

/-- Python `str.strip()` with no arguments. -/
def pyStrip (s : String) : String :=
  ⟨pyStripL s.data⟩

/-- Python `str.strip(chars)` for a single strip character, on lists. -/
def pyStripCharL (ch : Char) (l : List Char) : List Char :=
  ((l.dropWhile (· = ch)).reverse.dropWhile (· = ch)).reverse

/-- Python `str.strip(chars)` for a single strip character. -/
def pyStripChar (ch : Char) (s : String) : String :=
  ⟨pyStripCharL ch s.data⟩

/-- Python `s[:n]` on a string (code-point prefix). -/
def pyTake (n : Nat) (s : String) : String :=
  ⟨s.data.take n⟩

/-- Python `len(s)` on a string (number of code points). -/
def pyLen (s : String) : Nat :=
  s.data.length

/-- Python `str.upper()`, ASCII case mapping. -/
def pyUpper (s : String) : String :=
  ⟨s.data.map Char.toUpper⟩

/-- Python `str.lower()`, ASCII case mapping. -/
def pyLower (s : String) : String :=
  ⟨s.data.map Char.toLower⟩

/-- Does the pattern list occur at the head of the target list? -/
def startsW : List Char → List Char → Bool
  | [], _ => true
  | _ :: _, [] => false
  | a :: as, b :: bs => a = b && startsW as bs

/-- Python `str.startswith`. -/
def pyStartswith (pre s : String) : Bool :=
  startsW pre.data s.data

/-- Does the pattern list occur anywhere inside the target list? -/
def occursB (n : List Char) : List Char → Bool
  | [] => startsW n []
  | c :: t => startsW n (c :: t) || occursB n t

/-- Python `needle in hay` on strings (substring test). -/
def pyIn (needle hay : String) : Bool :=
  occursB needle.data hay.data

/-- Python `s.rsplit("/", 1)[-1]`: the part of the list after its last slash. -/
def lastSlashComponent (l : List Char) : List Char :=
  ((l.reverse.takeWhile (· ≠ '/')).reverse)

/-- Python `s.split(sep)` for a one-character separator (always returns at
least one piece; `"".split(sep) == [""]`). -/
def pySplitChar (sep : Char) : List Char → List (List Char)
  | [] => [[]]
  | c :: rest =>
      if c = sep then [] :: pySplitChar sep rest
      else
        match pySplitChar sep rest with
        | [] => [[c]]
        | piece :: more => (c :: piece) :: more

/-- `fnmatch` pattern matching with literal characters and the `*` wildcard
(the only metacharacter appearing in the configured patterns); `*` matches
any character sequence, slashes included, exactly as `fnmatch.translate`
produces.  Fuel-driven so that the definition computes; the fuel passed by
`fnmatch` below strictly exceeds the recursion depth. -/
def globMatchF : Nat → List Char → List Char → Bool
  | 0, _, _ => false
  | _ + 1, [], [] => true
  | _ + 1, [], _ :: _ => false
  | fuel + 1, p :: ps, s =>
      if p = '*' then
        globMatchF fuel ps s ||
          (match s with
           | [] => false
           | _ :: s' => globMatchF fuel (p :: ps) s')
      else
        match s with
        | [] => false
        | c :: s' => p = c && globMatchF fuel ps s'

/-- Python `fnmatch.fnmatch(name, pat)` on a POSIX system (no case folding),
for patterns whose only metacharacter is `*`. -/
def fnmatch (name pat : String) : Bool :=
  globMatchF (pat.data.length + name.data.length + 1) pat.data name.data

/-- `IGNORED_PATH_PATTERNS` from `generate_release_highlights_prompt.py`. -/
def IGNORED_PATH_PATTERNS : List String :=
  [".github/workflows/*", ".github/actions/*", "scripts/release/*", "docs/*",
   "charts/*/README*"]

/-- `is_ignored_path` from `generate_release_highlights_prompt.py`:
strip surrounding slashes, then ignore README basenames (case-insensitive),
paths under the top-level `docs/` directory, and the configured glob
patterns. -/
def is_ignored_path (path : String) : Bool :=
  let normalized := pyStripChar '/' path
  let base : String := ⟨lastSlashComponent normalized.data⟩
  if pyStartswith "README" (pyUpper base) then true
  else if pyStartswith "docs/" normalized then true
  else IGNORED_PATH_PATTERNS.any (fun pat => fnmatch normalized pat)

example : is_ignored_path "docs/a/b/c.md" = true := by decide
example : is_ignored_path "src/main.py" = false := by decide
example : is_ignored_path "charts/foo/README.md" = true := by decide
example : is_ignored_path ".github/workflows/ci.yml" = true := by decide
example : is_ignored_path "src/docs/guide.md" = false := by decide
example : is_ignored_path "a/readme.txt" = true := by decide
example : is_ignored_path "/docs/x" = true := by decide

/-- A release entry as consumed by `select_previous_release_tag`: the `draft`
flag and the `tag_name` field of the GitHub release JSON (`none` models a
missing/null `tag_name`). -/
structure Release where
  draft : Bool
  tag_name : Option String
  deriving Repr, DecidableEq

/-- The filter of `select_previous_release_tag`: keep releases that are not
drafts and whose `tag_name` is truthy (present and non-empty). -/
def releasePasses (r : Release) : Bool :=
  !r.draft && (match r.tag_name with | none => false | some t => t ≠ "")

/-- Tag of a release that passed the filter (`""` never occurs there). -/
def tagOf (r : Release) : String :=
  r.tag_name.getD ""

/-- First loop of `select_previous_release_tag`: scan the filtered list for
the current tag; on a hit, report the following entry's tag (or `none` when
the hit is last).  The outer `none` means the current tag was not found. -/
def scanForCurrent (current : String) : List Release → Option (Option String)
  | [] => none
  | r :: rest =>
      if tagOf r = current then
        some (match rest with
              | r2 :: _ => some (tagOf r2)
              | [] => none)
      else scanForCurrent current rest

/-- Second loop of `select_previous_release_tag`: first filtered tag that
differs from the current tag. -/
def scanForOther (current : String) : List Release → Option String
  | [] => none
  | r :: rest => if tagOf r ≠ current then some (tagOf r) else scanForOther current rest

/-- `select_previous_release_tag` from
`generate_release_highlights_prompt.py`. -/
def select_previous_release_tag (releases : List Release) (current_tag : String) :
    Option String :=
  let filtered := releases.filter releasePasses
  match scanForCurrent current_tag filtered with
  | some res => res
  | none => scanForOther current_tag filtered

example :
    select_previous_release_tag
      [⟨false, some "v1.3.0"⟩, ⟨false, some "v1.2.0"⟩, ⟨false, some "v1.1.0"⟩]
      "v1.2.0" = some "v1.1.0" := by decide

example :
    select_previous_release_tag
      [⟨false, some "v1.3.0"⟩, ⟨false, some "v1.2.0"⟩, ⟨false, some "v1.1.0"⟩]
      "v9.9.9" = some "v1.3.0" := by decide

/-- Python `str.splitlines()` restricted to the terminators `\n`, `\r`,
`\r\n`, `\x0b`, `\x0c` (the ones possible in the handled inputs); no final
empty piece is produced for a trailing terminator. -/
def isLineBreak (c : Char) : Bool :=
  c = '\n' || c = '\r' || c = '\x0b' || c = '\x0c'

/-- Helper for `pySplitlines`: split a character list at line breaks
(`\r\n` counts as one break). -/
def pySplitlinesL : List Char → List (List Char)
  | [] => []
  | '\r' :: '\n' :: rest => [] :: pySplitlinesL rest
  | c :: rest =>
      if isLineBreak c then [] :: pySplitlinesL rest
      else
        match pySplitlinesL rest with
        | [] => [[c]]
        | piece :: more => (c :: piece) :: more

/-- Python `str.splitlines()`. -/
def pySplitlines (s : String) : List String :=
  (pySplitlinesL s.data).map (fun l => ⟨l⟩)

example : pySplitlines "a\nb\r\nc\n" = ["a", "b", "c"] := by decide
example : pySplitlines "" = [] := by decide

/-- `first_line` from `generate_release_highlights_prompt.py`: strip the
text; if blank return `""`, else the stripped first line. -/
def first_line (text : String) : String :=
  if pyStrip text = "" then ""
  else pyStrip ((pySplitlines (pyStrip text)).headD "")

/-- `extract_commit_subject`: the first line of the commit message, with a
placeholder for blank messages (Python `or`). -/
def extract_commit_subject (message : String) : String :=
  let s := first_line message
  if s = "" then "(no commit subject)" else s

/-- A changed-file entry of a commit payload, as read by
`curate_commit_payloads` (the `str(...)`/`int(... or 0)` coercions applied
by the code are reflected in the field types). -/
structure FilePayload where
  filename : String
  status : String
  additions : Int
  deletions : Int
  changes : Int
  patch : String
  deriving Repr, DecidableEq

/-- A commit payload, as read by `curate_commit_payloads`. -/
structure CommitPayload where
  sha : String
  message : String
  html_url : String
  files : List FilePayload
  deriving Repr, DecidableEq

/-- A shipping-file record of the curated output. -/
structure ShippingFile where
  filename : String
  status : String
  additions : Int
  deletions : Int
  changes : Int
  patch : String
  deriving Repr, DecidableEq

/-- A curated commit of the curated output. -/
structure CuratedCommit where
  sha : String
  short_sha : String
  subject : String
  html_url : String
  shipping_files : List ShippingFile
  ignored_files : List String
  deriving Repr, DecidableEq

/-- The stats dictionary accumulated by `curate_commit_payloads`. -/
structure Stats where
  total_commits : Nat
  commits_with_shipping_changes : Nat
  commits_ignored_only : Nat
  shipping_files : Nat
  ignored_files : Nat
  deriving Repr, DecidableEq

/-- `truncate_patch` from `generate_release_highlights_prompt.py`.  The
budget is a `Nat`; Python's `max(0, remaining - len(snippet))` is the
truncated subtraction. -/
def truncate_patch (text : String) (remaining_chars : Nat) : String × Nat :=
  if remaining_chars = 0 || text = "" then ("", remaining_chars)
  else
    let snippet := pyTake remaining_chars text
    let snippet :=
      if pyLen text > pyLen snippet then snippet ++ "\n... [truncated]" else snippet
    (snippet, remaining_chars - pyLen snippet)

example : truncate_patch "ab" 1 = ("a\n... [truncated]", 0) := by decide
example : truncate_patch "ab" 5 = ("ab", 3) := by decide
example : truncate_patch "ab" 0 = ("", 0) := by decide

/-- The inner file loop of `curate_commit_payloads`: split one commit's
files into shipping records and ignored filenames, threading the patch
budget through `truncate_patch` in file order.  Entries with an empty
filename are skipped, as in the code. -/
def curateFiles : List FilePayload → Nat → List ShippingFile × List String × Nat
  | [], budget => ([], [], budget)
  | f :: rest, budget =>
      if f.filename = "" then curateFiles rest budget
      else if is_ignored_path f.filename then
        let (ship, ign, b') := curateFiles rest budget
        (ship, f.filename :: ign, b')
      else
        let (snippet, b1) := truncate_patch f.patch budget
        let (ship, ign, b') := curateFiles rest b1
        ({ filename := f.filename, status := f.status, additions := f.additions,
           deletions := f.deletions, changes := f.changes, patch := snippet } :: ship,
         ign, b')

/-- The commit loop of `curate_commit_payloads`: returns the curated list
together with the four incrementally accumulated counters
(shipping commits, ignored-only commits, shipping files, ignored files)
and the final budget. -/
def curateLoop : List CommitPayload → Nat →
    List CuratedCommit × Nat × Nat × Nat × Nat × Nat
  | [], budget => ([], 0, 0, 0, 0, budget)
  | p :: rest, budget =>
      let (ship, ign, b1) := curateFiles p.files budget
      let (cur, cs, ci, sf, igf, bEnd) := curateLoop rest b1
      if ship.isEmpty then
        (cur, cs, ci + 1, sf + ship.length, igf + ign.length, bEnd)
      else
        ({ sha := p.sha, short_sha := pyTake 8 p.sha,
           subject := extract_commit_subject p.message, html_url := p.html_url,
           shipping_files := ship, ignored_files := ign } :: cur,
         cs + 1, ci, sf + ship.length, igf + ign.length, bEnd)

/-- `curate_commit_payloads` from `generate_release_highlights_prompt.py`. -/
def curate_commit_payloads (commit_payloads : List CommitPayload)
    (max_patch_chars : Nat) : List CuratedCommit × Stats :=
  let (cur, cs, ci, sf, igf, _) := curateLoop commit_payloads max_patch_chars
  (cur,
   { total_commits := commit_payloads.length,
     commits_with_shipping_changes := cs,
     commits_ignored_only := ci,
     shipping_files := sf,
     ignored_files := igf })

/-- Total number of patch characters emitted into the curated output. -/
def emittedPatchChars (curated : List CuratedCommit) : Nat :=
  (curated.map (fun c => ((c.shipping_files.map (fun f => pyLen f.patch)).sum))).sum

/-- Python `"\n".join` on character-list lines. -/
def joinNl : List (List Char) → List Char
  | [] => []
  | [l] => l
  | l :: ls => l ++ '\n' :: joinNl ls

/-- The whitespace class of `textwrap.dedent` (only spaces and tabs). -/
def isSpTab (c : Char) : Bool :=
  c = ' ' || c = '\t'

/-- First step of `textwrap.dedent`: normalise lines consisting solely of
spaces/tabs to empty lines. -/
def blankWsLine (l : List Char) : List Char :=
  if !l.isEmpty && l.all isSpTab then [] else l

/-- The leading space/tab run of a line. -/
def lineIndent (l : List Char) : List Char :=
  l.takeWhile isSpTab

/-- Longest common prefix of two character lists. -/
def cpfx : List Char → List Char → List Char
  | a :: as, b :: bs => if a = b then a :: cpfx as bs else []
  | _, _ => []

/-- The margin computed by `textwrap.dedent`: the common leading
space/tab run of all non-blank lines. -/
def marginOf (lines : List (List Char)) : List Char :=
  match (lines.filter (fun l => !l.isEmpty)).map lineIndent with
  | [] => []
  | i :: is => is.foldl cpfx i

/-- Line-level core of `textwrap.dedent`: blank the whitespace-only lines,
then remove the common margin from every line that carries it. -/
def dedentLines (lines : List (List Char)) : List (List Char) :=
  let blanked := lines.map blankWsLine
  let margin := marginOf blanked
  blanked.map (fun l => if startsW margin l then l.drop margin.length else l)

/-- Python `textwrap.dedent` on a character list (lines are the pieces
between `\n` characters, as in CPython's implementation). -/
def pythonDedentL (l : List Char) : List Char :=
  joinNl (dedentLines (pySplitChar '\n' l))

/-- The context dictionary assembled by `main` and passed to
`build_prompt` (all keys present; `previous_tag` may be `None`). -/
structure PromptContext where
  repo : String
  current_tag : String
  previous_tag : Option String
  compare_url : String
  stats : Stats
  commits : List CuratedCommit
  deriving Repr, DecidableEq

/-- Rendering of `previous_tag` inside the f-string: Python formats the
value `None` as the text `None`. -/
def renderPreviousTag : Option String → String
  | some t => t
  | none => "None"

/-- Rendering of `compare_url or '(not available)'`. -/
def renderCompareUrl (u : String) : String :=
  if u = "" then "(not available)" else u

/-- The per-file sub-lines of the commit listing in `build_prompt`. -/
def fileLines (f : ShippingFile) : List String :=
  ("  - file: " ++ f.filename ++ " [" ++ f.status ++ ", +" ++ toString f.additions ++
      "/-" ++ toString f.deletions ++ "]") ::
    (if f.patch = "" then []
     else "    patch:" :: (pySplitlines f.patch).map (fun l => "      " ++ l))

/-- The lines contributed by one curated commit in `build_prompt`. -/
def commitEntryLines (c : CuratedCommit) : List String :=
  ("- " ++ c.short_sha ++ " " ++ c.subject ++ " (" ++ c.html_url ++ ")") ::
    (c.shipping_files.map fileLines).flatten

/-- The commit listing of `build_prompt`: the per-commit lines, or the
literal placeholder when nothing survived curation. -/
def commit_lines (commits : List CuratedCommit) : List String :=
  let ls := (commits.map commitEntryLines).flatten
  if ls.isEmpty then ["- No shipping-relevant commit/file details were extracted."]
  else ls

/-- Python `"\n".join` on strings. -/
def joinNlStr (ls : List String) : String :=
  ⟨joinNl (ls.map String.data)⟩

/-- The fixed head of the prompt f-string, up to the output-contract
heading. -/
def promptHead : List Char :=
  "\n        You are writing release highlights for humans.\n\n        Output contract:".data

/-- The template line carrying the bullet-only output contract. -/
def lineReturnOnly : List Char :=
  "        - Return ONLY markdown bullet lines.".data

/-- The template line carrying the bullet-count contract. -/
def lineOutputBullets : List Char :=
  "        - Output 3 to 6 bullets.".data

/-- The rest of the prompt f-string, from the third contract line to the
trailing indent before the closing quotes, with all interpolations. -/
def promptTail (ctx : PromptContext) : List Char :=
  ("        - Each line MUST start with \"- \".\n        - No headings, no preamble, no code fences, no JSON.\n        - Focus only on shipped behavior and noteworthy user/developer impact.\n        - Merge related low-level changes into cohesive high-level bullets.\n        - Ignore release workflow churn, CI plumbing, docs-only edits, and script-only release process changes unless they directly affect shipped runtime behavior.\n\n        Release metadata:\n        - Repository: "
    ++ ctx.repo
    ++ "\n        - Current tag: "
    ++ ctx.current_tag
    ++ "\n        - Previous release tag: "
    ++ renderPreviousTag ctx.previous_tag
    ++ "\n        - Compare URL: "
    ++ renderCompareUrl ctx.compare_url
    ++ "\n\n        Context quality stats:\n        - Total commits inspected: "
    ++ toString ctx.stats.total_commits
    ++ "\n        - Commits with shipping-relevant file changes: "
    ++ toString ctx.stats.commits_with_shipping_changes
    ++ "\n        - Commits ignored as non-shipping-only: "
    ++ toString ctx.stats.commits_ignored_only
    ++ "\n        - Shipping files considered: "
    ++ toString ctx.stats.shipping_files
    ++ "\n        - Ignored files filtered: "
    ++ toString ctx.stats.ignored_files
    ++ "\n\n        Curated commit and code context:\n        "
    ++ joinNlStr (commit_lines ctx.commits)
    ++ "\n        ").data

/-- The full f-string handed to `textwrap.dedent` by `build_prompt`. -/
def rawPrompt (ctx : PromptContext) : List Char :=
  promptHead ++ '\n' :: (lineReturnOnly ++ '\n' :: (lineOutputBullets ++ '\n' :: promptTail ctx))

/-- `build_prompt` from `generate_release_highlights_prompt.py`:
dedent the template, strip it, and append a final newline. -/
def build_prompt (ctx : PromptContext) : String :=
  ⟨pyStripL (pythonDedentL (rawPrompt ctx)) ++ ('\n' :: [])⟩

/-- Python `sep.join(items)` on strings. -/
def pyJoin (sep : String) : List String → String
  | [] => ""
  | [a] => a
  | a :: rest => a ++ sep ++ pyJoin sep rest

/-- Loop body of `extract_change_bullets` from `render_release_body.py`;
`count` is the number of bullets collected so far, and the loop breaks
once `count` reaches the limit after any non-blank line. -/
def ecbGo (limit : Nat) : List String → Nat → List String
  | [], _ => []
  | raw :: rest, count =>
      let line := pyStrip raw
      if line = "" then ecbGo limit rest count
      else
        let bullet : Option String :=
          if pyStartswith "* " line || pyStartswith "- " line then
            let b := pyStrip ⟨line.data.drop 2⟩
            if b = "" then none else some b
          else none
        match bullet with
        | some b => if limit ≤ count + 1 then [b] else b :: ecbGo limit rest (count + 1)
        | none => if limit ≤ count then [] else ecbGo limit rest count

/-- `extract_change_bullets` from `render_release_body.py`. -/
def extract_change_bullets (changelog : String) (limit : Nat) : List String :=
  ecbGo limit (pySplitlines changelog) 0

example :
    extract_change_bullets "- feat: add caching\n- fix: timeout bug" 3 =
      ["feat: add caching", "fix: timeout bug"] := by decide

/-- Matcher continuation: a literal character sequence followed by the
continuation. -/
def litThen : List Char → (List Char → Bool) → List Char → Bool
  | [], k, l => k l
  | _ :: _, _, [] => false
  | c :: cs, k, x :: xs => c = x && litThen cs k xs

/-- Matcher continuation: a case-insensitive literal followed by the
continuation (ASCII folding). -/
def litCiThen : List Char → (List Char → Bool) → List Char → Bool
  | [], k, l => k l
  | _ :: _, _, [] => false
  | c :: cs, k, x :: xs => c.toLower = x.toLower && litCiThen cs k xs

/-- Matcher: zero or more whitespace characters, then the continuation
(with full backtracking, i.e. existential semantics). -/
def wsStarThen (k : List Char → Bool) : List Char → Bool
  | [] => k []
  | c :: rest => k (c :: rest) || (isPySpace c && wsStarThen k rest)

/-- Matcher: one or more whitespace characters, then the continuation. -/
def wsPlusThen (k : List Char → Bool) : List Char → Bool
  | [] => false
  | c :: rest => isPySpace c && wsStarThen k rest

/-- Matcher: the tail of a `[^ ]+` run (zero or more additional non-space
characters), then the continuation. -/
def nonSpStarThen (k : List Char → Bool) : List Char → Bool
  | [] => k []
  | c :: rest => k (c :: rest) || (c ≠ ' ' && nonSpStarThen k rest)

/-- Matcher: `[^ ]+` (one or more non-space characters), then the
continuation. -/
def nonSpPlusThen (k : List Char → Bool) : List Char → Bool
  | [] => false
  | c :: rest => c ≠ ' ' && nonSpStarThen k rest

/-- Matcher: a non-empty all-non-whitespace remainder (regex `\S+$`). -/
def nonWsPlusEnd : List Char → Bool
  | [] => false
  | l => l.all (fun c => !isPySpace c)

/-- Full match of the attribution suffix pattern of `extract_pr_titles`
(whitespace, `by`, whitespace, `@user`, whitespace, `in`, whitespace, an
`http`/`https` URL running to the end of the string). -/
def matchAttrib : List Char → Bool :=
  wsPlusThen (litThen "by".data (wsPlusThen (litThen "@".data (nonSpPlusThen
    (wsPlusThen (litThen "in".data (wsPlusThen (litThen "http".data (fun r =>
      litThen "s://".data nonWsPlusEnd r || litThen "://".data nonWsPlusEnd r)))))))))

/-- Full match of the `- autoclosed` suffix pattern of `extract_pr_titles`
(optional whitespace, `-`, optional whitespace, case-insensitive
`autoclosed`, optional trailing whitespace, end of string). -/
def matchAutoclosed : List Char → Bool :=
  wsStarThen (litThen "-".data (wsStarThen (litCiThen "autoclosed".data
    (fun r => r.all isPySpace))))

/-- `re.sub` for an end-anchored pattern: delete the suffix starting at the
leftmost position whose remainder fully matches. -/
def subEndMatch (m : List Char → Bool) : List Char → List Char
  | [] => []
  | c :: rest => if m (c :: rest) then [] else c :: subEndMatch m rest

/-- `extract_pr_titles` from `render_release_body.py`. -/
def extract_pr_titles (changelog : String) : List String :=
  (extract_change_bullets changelog 100).filterMap (fun bullet =>
    let cleaned := pyStrip ⟨subEndMatch matchAttrib bullet.data⟩
    let cleaned : String := ⟨subEndMatch matchAutoclosed cleaned.data⟩
    if cleaned = "" then none else some cleaned)

example :
    extract_pr_titles "- feat: x by @bob in https://g.example/1\n- chore: y - AutoClosed" =
      ["feat: x", "chore: y"] := by decide

/-- ASCII lowercase letter test (regex class `[a-z]`). -/
def isAsciiLower (c : Char) : Bool :=
  'a' ≤ c && c ≤ 'z'

/-- Deterministic match of the conventional-commit head pattern
(`^[a-z]+(?:\([^)]+\))?!?:\s*`); returns the remainder after the matched
head, or `none` when the pattern does not match at the start. -/
def matchConvHead (l : List Char) : Option (List Char) :=
  let run := l.takeWhile isAsciiLower
  if run.isEmpty then none
  else
    let rest := l.drop run.length
    let afterGroup : Option (List Char) :=
      match rest with
      | '(' :: r1 =>
          let inner := r1.takeWhile (· ≠ ')')
          if inner.isEmpty then none
          else
            match r1.drop inner.length with
            | ')' :: r2 => some r2
            | _ => none
      | _ => some rest
    match afterGroup with
    | none => none
    | some r =>
        let r := match r with
          | '!' :: r' => r'
          | _ => r
        match r with
        | ':' :: r' => some (r'.dropWhile isPySpace)
        | _ => none

/-- `strip_conventional_prefix` from `render_release_body.py` (the trailing
`.strip()` included). -/
def strip_conventional (title : String) : String :=
  pyStrip ⟨(matchConvHead title.data).getD title.data⟩

example : strip_conventional "feat(api): add endpoint" = "add endpoint" := by decide
example : strip_conventional "fix!: boom" = "boom" := by decide
example : strip_conventional "Feat: x" = "Feat: x" := by decide

/-- `sentence_case` from `render_release_body.py`. -/
def sentence_case (text : String) : String :=
  match text.data with
  | [] => text
  | c :: rest =>
      let l := Char.toUpper c :: rest
      let lastc := l.getLastD ' '
      if lastc = '.' || lastc = '!' || lastc = '?' then ⟨l⟩ else ⟨l ++ ['.']⟩

example : sentence_case "did a thing" = "Did a thing." := by decide

/-- `human_join` from `render_release_body.py`. -/
def human_join (items : List String) : String :=
  match items with
  | [] => ""
  | [a] => a
  | [a, b] => a ++ " and " ++ b
  | _ => pyJoin ", " items.dropLast ++ ", and " ++ items.getLastD ""

example : human_join ["a", "b", "c"] = "a, b, and c" := by decide

/-- `classify_title` from `render_release_body.py`. -/
def classify_title (title : String) : String :=
  let lower := pyLower title
  if pyIn "renovate" lower &&
      (["resolve", "repair", "datasource", "regex", "attachment", "digest",
        "fix("].any (fun key => pyIn key lower)) then "renovate"
  else if (["deps", "dependency", "vs code cli", "pin dependencies",
        " uv "].any (fun key => pyIn key lower)) then "dependencies"
  else if pyIn "bump chart version" lower then "release"
  else "other"

/-- Python word-character test (regex `\w`), ASCII range. -/
def isWordChar (c : Char) : Bool :=
  c.isAlphanum || c = '_'

/-- Word-boundary test on the left of a match (`prev` is the preceding
character, if any). -/
def boundaryL : Option Char → Bool
  | none => true
  | some c => !isWordChar c

/-- Word-boundary test on the right of a match (argument is the remainder
after the match). -/
def boundaryR : List Char → Bool
  | [] => true
  | c :: _ => !isWordChar c

/-- Case-insensitive `startsW` (ASCII folding). -/
def startsWCi (pat l : List Char) : Bool :=
  litCiThen pat (fun _ => true) l

/-- Scanner for `re.sub(r"\bgithub\b", "GitHub", s, flags=IGNORECASE)`:
replace every non-overlapping word-bounded occurrence, left to right.
Fuel-driven (each step consumes at least one character). -/
def ghGo : Nat → Option Char → List Char → List Char
  | 0, _, l => l
  | fuel + 1, prev, l =>
      match l with
      | [] => []
      | c :: rest =>
          if startsWCi "github".data l && boundaryL prev && boundaryR (l.drop 6) then
            "GitHub".data ++ ghGo fuel (some 'b') (l.drop 6)
          else c :: ghGo fuel (some c) rest

/-- The final `re.sub(r"\bgithub\b", "GitHub", ...)` of `summarize_renovate`. -/
def normalize_github (s : String) : String :=
  ⟨ghGo (s.data.length + 1) none s.data⟩

example : normalize_github "github and mygithub and github.com" =
    "GitHub and mygithub and GitHub.com" := by decide

/-- `summarize_renovate` from `render_release_body.py`. -/
def summarize_renovate (titles : List String) : String :=
  let points := titles.map strip_conventional
  let normalized := points.map (fun point =>
    if pyStartswith "resolve " point then "resolving " ++ (⟨point.data.drop 8⟩ : String)
    else if pyStartswith "repair " point then "repairing " ++ (⟨point.data.drop 7⟩ : String)
    else if pyStartswith "use " point then "using " ++ (⟨point.data.drop 4⟩ : String)
    else if pyStartswith "fix " point then "fixing " ++ (⟨point.data.drop 4⟩ : String)
    else point)
  normalize_github (sentence_case ("Improved Renovate reliability by " ++
    human_join normalized))

/-- Leftmost search for the standalone word `uv` (regex `\buv\b`). -/
def searchUvWord : Option Char → List Char → Bool
  | _, [] => false
  | prev, c :: rest =>
      (boundaryL prev && startsW "uv".data (c :: rest) && boundaryR ((c :: rest).drop 2)) ||
        searchUvWord (some c) rest

/-- `summarize_dependencies` from `render_release_body.py`. -/
def summarize_dependencies (titles : List String) : String :=
  let lower_titles := titles.map pyLower
  let changes : List String :=
    (if lower_titles.any (fun t => pyIn "pin dependencies" t) then
      ["pinned GitHub Actions dependencies"] else []) ++
    (if lower_titles.any (fun t => pyIn "vs code cli" t) then
      ["updated VS Code CLI"] else []) ++
    (if lower_titles.any (fun t => searchUvWord none t.data) then
      ["updated uv"] else [])
  let changes := if changes.isEmpty then titles.map strip_conventional else changes
  sentence_case ("Dependency updates: " ++ human_join changes)

/-- Digit test (regex class `[0-9]`). -/
def isAsciiDigit (c : Char) : Bool :=
  '0' ≤ c && c ≤ '9'

/-- Match of `bump chart version to ([0-9]+\.[0-9]+\.[0-9]+)` (IGNORECASE)
at the current position; returns the captured version. -/
def matchVersionAt (l : List Char) : Option (List Char) :=
  if startsWCi "bump chart version to ".data l then
    let r := l.drop 22
    let d1 := r.takeWhile isAsciiDigit
    if d1.isEmpty then none
    else
      match r.drop d1.length with
      | '.' :: r2 =>
          let d2 := r2.takeWhile isAsciiDigit
          if d2.isEmpty then none
          else
            match r2.drop d2.length with
            | '.' :: r3 =>
                let d3 := r3.takeWhile isAsciiDigit
                if d3.isEmpty then none
                else some (d1 ++ '.' :: d2 ++ '.' :: d3)
            | _ => none
      | _ => none
  else none

/-- Leftmost `re.search` for the chart-version pattern. -/
def searchVersion : List Char → Option (List Char)
  | [] => none
  | c :: rest =>
      match matchVersionAt (c :: rest) with
      | some v => some v
      | none => searchVersion rest

/-- `summarize_release` from `render_release_body.py`.  The caller only
passes non-empty groups (the Python code indexes `titles[0]`). -/
def summarize_release (titles : List String) : String :=
  let first := titles.headD ""
  match searchVersion first.data with
  | some v =>
      "Release readiness: bumped the Helm chart version to " ++ (⟨v⟩ : String) ++ "."
  | none => sentence_case ("Release readiness: " ++ strip_conventional first)

example :
    summarize_release ["bump chart version to 1.4.2"] =
      "Release readiness: bumped the Helm chart version to 1.4.2." := by decide

/-- `grouped.setdefault(key, []).append(title)` on an insertion-ordered
association list, as Python dictionaries behave. -/
def setdefaultAppend (m : List (String × List String)) (k : String) (v : String) :
    List (String × List String) :=
  match m with
  | [] => [(k, [v])]
  | (k', vs) :: rest =>
      if k' = k then (k', vs ++ [v]) :: rest else (k', vs) :: setdefaultAppend rest k v

/-- The per-group summary bullets appended by the loop of
`build_highlights`. -/
def groupBullets (kg : String × List String) : List String :=
  if kg.1 = "renovate" then [summarize_renovate kg.2]
  else if kg.1 = "dependencies" then [summarize_dependencies kg.2]
  else if kg.1 = "release" then [summarize_release kg.2]
  else kg.2.map (fun t => sentence_case (strip_conventional t))

/-- `build_highlights` from `render_release_body.py`. -/
def build_highlights (tag changelog : String) (override_bullets : List String) :
    List String :=
  if !override_bullets.isEmpty then override_bullets
  else
    let titles := extract_pr_titles changelog
    if titles.isEmpty then
      ["Release `" ++ tag ++ "` includes updates described in the full changelog below."]
    else
      let grouped := titles.foldl (fun m t => setdefaultAppend m (classify_title t) t) []
      let highlights := (grouped.map groupBullets).flatten
      highlights.take 4

example :
    build_highlights "v1.0.0" "" [] =
      ["Release `v1.0.0` includes updates described in the full changelog below."] := by
  decide

/-- The `body_lines` list assembled by `render_body` from
`render_release_body.py`. -/
def render_body_lines (tag pages_url image_ghcr image_dockerhub install_image_tag
    install_image_digest changelog : String) (override_highlights : List String) :
    List String :=
  let chart_version := if pyStartswith "v" tag then (⟨tag.data.drop 1⟩ : String) else tag
  let highlights := build_highlights tag changelog override_highlights
  let install_lines : List String :=
    ["```bash",
     "helm repo add gpubox " ++ pages_url,
     "helm repo update",
     "",
     "helm upgrade --install gpubox gpubox/gpubox \\",
     "  --version " ++ chart_version ++ " \\",
     "  --set image.tag=" ++ install_image_tag ++ " \\"] ++
    (if install_image_digest ≠ "" then
      ["  --set image.digest=" ++ install_image_digest ++ " \\"] else []) ++
    ["  --namespace gpubox \\",
     "  --create-namespace",
     "```"]
  ["## Highlights"] ++ highlights.map (fun line => "- " ++ line) ++ [""] ++
    ["## Install", "", "Helm chart repo (GitHub Pages):", ""] ++ install_lines ++
    ["", "Container images:", "",
     "- `" ++ image_ghcr ++ "`",
     "- `" ++ image_dockerhub ++ "`",
     "",
     "## Full changelog",
     changelog,
     ""]

/-- `render_body` from `render_release_body.py`. -/
def render_body (tag pages_url image_ghcr image_dockerhub install_image_tag
    install_image_digest changelog : String) (override_highlights : List String) :
    String :=
  pyJoin "\n" (render_body_lines tag pages_url image_ghcr image_dockerhub
    install_image_tag install_image_digest changelog override_highlights)

/-- Characters permitted in a URL scheme by `urllib.parse`. -/
def isSchemeChar (c : Char) : Bool :=
  c.isAlpha || c.isDigit || c = '+' || c = '-' || c = '.'

/-- The scheme-removal step of `urllib.parse.urlsplit`: when the text up to
the first colon is a well-formed scheme, drop it together with the colon. -/
def stripScheme (l : List Char) : List Char :=
  let pre := l.takeWhile (· ≠ ':')
  if pre.length = l.length then l
  else
    match pre with
    | [] => l
    | c :: _ => if c.isAlpha && pre.all isSchemeChar then l.drop (pre.length + 1) else l

/-- The (lower-cased) scheme recognised by `urllib.parse.urlsplit`, or `[]`
when the URL carries no well-formed scheme. -/
def schemeOf (l : List Char) : List Char :=
  let pre := l.takeWhile (· ≠ ':')
  if pre.length = l.length then []
  else
    match pre with
    | [] => []
    | c :: _ => if c.isAlpha && pre.all isSchemeChar then pre.map Char.toLower else []

/-- `urllib.parse.uses_params`: the schemes for which `urlparse` splits a
`;params` suffix off the last path segment (the empty string covers
scheme-less URLs). -/
def uses_params : List String :=
  ["", "ftp", "hdl", "prospero", "http", "imap", "https", "imaps", "mms",
   "rtsp", "rtspu", "sftp", "tel", "telnet"]

/-- `urllib.parse._splitparams`, keeping only the path part: when the path
contains a slash, cut the path at the first `;` at or after the last
slash; otherwise cut at the first `;`.  Without a `;` in the relevant
region this is the identity, so `urlparse`'s `';' in url` guard is
subsumed. -/
def pySplitParams (path : List Char) : List Char :=
  if path.contains '/' then
    let lastSeg := (path.reverse.takeWhile (fun c => c ≠ '/')).reverse
    if lastSeg.contains ';' then
      path.take (path.length - lastSeg.length) ++ lastSeg.takeWhile (fun c => c ≠ ';')
    else path
  else path.takeWhile (fun c => c ≠ ';')

/-- The `netloc` and `path` produced by `urllib.parse.urlparse`: after the
scheme, a `//` introduces the netloc (running to the first `/`, `?` or
`#`); the path then runs to the first `?` or `#` (query and fragment are
discarded), and for the schemes in `uses_params` a `;params` suffix of the
last path segment is split off. -/
def netlocAndPath (l : List Char) : List Char × List Char :=
  let scheme : String := ⟨schemeOf l⟩
  let rest := stripScheme l
  if startsW "//".data rest then
    let r := rest.drop 2
    let netloc := r.takeWhile (fun c => c ≠ '/' && c ≠ '?' && c ≠ '#')
    let after := r.drop netloc.length
    let path := after.takeWhile (fun c => c ≠ '?' && c ≠ '#')
    (netloc, if uses_params.contains scheme then pySplitParams path else path)
  else
    let path := rest.takeWhile (fun c => c ≠ '?' && c ≠ '#')
    ([], if uses_params.contains scheme then pySplitParams path else path)

/-- One hexadecimal digit, as accepted by `urllib.parse.unquote`. -/
def hexVal (c : Char) : Option Nat :=
  if '0' ≤ c && c ≤ '9' then some (c.toNat - '0'.toNat)
  else if 'a' ≤ c && c ≤ 'f' then some (c.toNat - 'a'.toNat + 10)
  else if 'A' ≤ c && c ≤ 'F' then some (c.toNat - 'A'.toNat + 10)
  else none

/-- `urllib.parse.unquote`: decode each `%XX` escape to the character with
code `XX` (Python additionally recombines UTF-8 byte sequences; the two
coincide on the ASCII escapes a release tag can carry). -/
def pyUnquoteGo : Nat → List Char → List Char
  | 0, l => l
  | _ + 1, [] => []
  | fuel + 1, c :: rest =>
      if c = '%' then
        match rest with
        | a :: b :: rest2 =>
            (match hexVal a, hexVal b with
             | some x, some y => Char.ofNat (16 * x + y) :: pyUnquoteGo fuel rest2
             | _, _ => c :: pyUnquoteGo fuel rest)
        | _ => c :: pyUnquoteGo fuel rest
      else c :: pyUnquoteGo fuel rest

/-- `pyUnquoteGo` with enough fuel for its whole input (each step consumes
at least one character). -/
def pyUnquoteL (l : List Char) : List Char :=
  pyUnquoteGo (l.length + 1) l

/-- Python `"/".join` on character-list pieces. -/
def joinSlash : List (List Char) → List Char
  | [] => []
  | [l] => l
  | l :: ls => l ++ '/' :: joinSlash ls

/-- `parse_release_url` from `generate_release_highlights_prompt.py`;
`ValueError` is modelled as `Except.error` carrying the message. -/
def parse_release_url (url : String) : Except String (String × String) :=
  let np := netlocAndPath url.data
  let netloc : String := ⟨np.1⟩
  if !(netloc = "github.com" || netloc = "www.github.com") then
    .error ("Unsupported release URL host: " ++ netloc)
  else
    let path := pyStripCharL '/' np.2
    let parts := pySplitChar '/' path
    if parts.length < 5 || !(parts.getD 2 [] = "releases".data) ||
        !(parts.getD 3 [] = "tag".data) then
      .error "Release URL must be in canonical format /<owner>/<repo>/releases/tag/<tag>."
    else
      let owner : String := ⟨parts.getD 0 []⟩
      let repo : String := ⟨parts.getD 1 []⟩
      let tag : String := pyStrip ⟨pyUnquoteL (joinSlash (parts.drop 4))⟩
      if owner = "" || repo = "" || tag = "" then
        .error "Could not parse owner/repo/tag from release URL."
      else .ok (owner ++ "/" ++ repo, tag)

example :
    parse_release_url "https://github.com/example/repo/releases/tag/v1.2.0" =
      .ok ("example/repo", "v1.2.0") := rfl
example :
    parse_release_url "https://gitlab.com/example/repo/releases/tag/v1.2.0" =
      .error "Unsupported release URL host: gitlab.com" := rfl
example :
    parse_release_url "https://github.com/example/repo/tags/v1.2.0" =
      .error "Release URL must be in canonical format /<owner>/<repo>/releases/tag/<tag>." := rfl
example :
    parse_release_url "https://github.com/example/repo/releases/tag/v1%20x" =
      .ok ("example/repo", "v1 x") := rfl
example :
    parse_release_url "https://github.com/example/repo/releases/tag/v1;beta" =
      .ok ("example/repo", "v1") := rfl
example :
    parse_release_url "https://github.com/example/repo/releases/tag/;x" =
      .error "Release URL must be in canonical format /<owner>/<repo>/releases/tag/<tag>." := rfl

/-- The SHA-deduplication loop of `load_release_delta` (the Python `seen`
set is modelled as the list of SHAs already kept). -/
def dedupGo (seen : List String) : List String → List String
  | [] => []
  | sha :: rest =>
      if sha = "" || seen.contains sha then dedupGo seen rest
      else sha :: dedupGo (sha :: seen) rest

/-- Deduplicate SHAs, dropping empties, keeping first occurrences. -/
def dedupShas (shas : List String) : List String :=
  dedupGo [] shas

/-- Python `l[-n:]`: for `n = 0` the slice is `l[0:]`, i.e. the whole
list; otherwise the last `min n (length l)` elements. -/
def pyTailSlice (n : Nat) (l : List String) : List String :=
  if n = 0 then l else l.drop (l.length - n)

/-- The post-processing of `load_release_delta`: deduplicate, then keep the
trailing slice when the deduplicated list exceeds `max_commits`. -/
def dedupe_and_limit (commit_shas : List String) (max_commits : Nat) : List String :=
  let unique := dedupShas commit_shas
  if max_commits < unique.length then pyTailSlice max_commits unique else unique

example : dedupe_and_limit ["a", "b", "", "a", "c"] 2 = ["b", "c"] := by decide
example : dedupe_and_limit ["a", "b"] 5 = ["a", "b"] := by decide

/-- Modelled from the spec sentence "deduplicate SHAs preserving first
occurrence": keep an element exactly when it is non-empty and is the first
occurrence of its value, by erasing all later duplicates of each kept
head. -/
def specDedup : List String → List String
  | [] => []
  | s :: rest =>
      if s = "" then specDedup rest else s :: specDedup (rest.filter (fun x => x != s))
  termination_by l => l.length
  decreasing_by
  · simp only [List.length_cons]
    omega
  · simp only [List.length_cons]
    exact Nat.lt_succ_of_le (List.length_filter_le _ _)

/-! ### Counter bookkeeping of the curation loop -/

theorem curateLoop_counts (ps : List CommitPayload) (b : Nat) :
    (curateLoop ps b).2.1 + (curateLoop ps b).2.2.1 = ps.length := by
  induction ps generalizing b with
  | nil => simp [curateLoop]
  | cons p rest ih =>
      rcases hcf : curateFiles p.files b with ⟨ship, ign, b1⟩
      rcases hcl : curateLoop rest b1 with ⟨cur, cs, ci, sf, igf, bEnd⟩
      have h := ih b1
      rw [hcl] at h
      simp only at h
      by_cases hs : ship.isEmpty
      · simp [curateLoop, hcf, hcl, hs]
        omega
      · simp [curateLoop, hcf, hcl, hs]
        omega

/-- Claim C9: the stats returned by `curate_commit_payloads` satisfy
`total_commits = commits_with_shipping_changes + commits_ignored_only`,
and `total_commits` equals the length of the input list, so every input
commit is counted in exactly one of the two categories. -/
theorem claim_C9 (ps : List CommitPayload) (b : Nat) :
    (curate_commit_payloads ps b).2.total_commits = ps.length ∧
      (curate_commit_payloads ps b).2.total_commits =
        (curate_commit_payloads ps b).2.commits_with_shipping_changes +
          (curate_commit_payloads ps b).2.commits_ignored_only := by
  have h := curateLoop_counts ps b
  rcases hcl : curateLoop ps b with ⟨cur, cs, ci, sf, igf, bEnd⟩
  rw [hcl] at h
  simp only at h
  simp [curate_commit_payloads, hcl]
  omega

/-! ### Previous-release selection -/

theorem scanForOther_eq (current : String) (l : List Release) :
    scanForOther current l = (l.map tagOf).find? (fun s => s != current) := by
  induction l with
  | nil => simp [scanForOther]
  | cons r rest ih =>
      simp only [List.map_cons]
      by_cases h : tagOf r = current
      · rw [List.find?_cons_of_neg _ (by simp [h])]
        simp [scanForOther, h, ih]
      · rw [List.find?_cons_of_pos _ (by simp [h])]
        simp [scanForOther, h]

theorem scanForCurrent_found (current : String) (l : List Release) (a : List String)
    (t : String) (b : List String) (h : l.map tagOf = a ++ current :: t :: b)
    (ha : current ∉ a) : scanForCurrent current l = some (some t) := by
  induction l generalizing a with
  | nil => simp at h
  | cons r rest ih =>
      cases a with
      | nil =>
          simp only [List.map_cons, List.nil_append] at h
          obtain ⟨h1, h2⟩ := List.cons_eq_cons.mp h
          cases rest with
          | nil => simp at h2
          | cons r2 rest' =>
              simp only [List.map_cons] at h2
              obtain ⟨h3, _⟩ := List.cons_eq_cons.mp h2
              simp [scanForCurrent, h1, h3]
      | cons x a' =>
          simp only [List.map_cons, List.cons_append] at h
          obtain ⟨h1, h2⟩ := List.cons_eq_cons.mp h
          have hxne : tagOf r ≠ current := by
            rw [h1]
            intro hx
            exact ha (by simp [hx])
          have ha' : current ∉ a' := fun hin => ha (by simp [hin])
          simp [scanForCurrent, hxne, ih a' h2 ha']

theorem scanForCurrent_last (current : String) (l : List Release) (a : List String)
    (h : l.map tagOf = a ++ [current]) (ha : current ∉ a) :
    scanForCurrent current l = some none := by
  induction l generalizing a with
  | nil => simp at h
  | cons r rest ih =>
      cases a with
      | nil =>
          simp only [List.map_cons, List.nil_append] at h
          obtain ⟨h1, h2⟩ := List.cons_eq_cons.mp h
          have : rest = [] := by
            cases rest with
            | nil => rfl
            | cons r2 rest' => simp at h2
          subst this
          simp [scanForCurrent, h1]
      | cons x a' =>
          simp only [List.map_cons, List.cons_append] at h
          obtain ⟨h1, h2⟩ := List.cons_eq_cons.mp h
          have hxne : tagOf r ≠ current := by
            rw [h1]
            intro hx
            exact ha (by simp [hx])
          have ha' : current ∉ a' := fun hin => ha (by simp [hin])
          simp [scanForCurrent, hxne, ih a' h2 ha']

theorem scanForCurrent_absent (current : String) (l : List Release)
    (h : current ∉ l.map tagOf) : scanForCurrent current l = none := by
  induction l with
  | nil => simp [scanForCurrent]
  | cons r rest ih =>
      have h1 : tagOf r ≠ current := by
        intro hx
        exact h (by simp [hx])
      have h2 : current ∉ rest.map tagOf := fun hin => h (by simp [hin])
      simp [scanForCurrent, h1, ih h2]

/-- Claim C3: `select_previous_release_tag` returns the tag immediately
following the (first occurrence of the) current tag within the filtered
sublist of non-draft, tagged releases; `none` when the current tag closes
that sublist; and, when the current tag does not occur in the sublist, the
first tag of the sublist that differs from the current tag (`none` when
there is no such tag). -/
theorem claim_C3 (releases : List Release) (current : String) :
    (∀ a t b, (releases.filter releasePasses).map tagOf = a ++ current :: t :: b →
        current ∉ a → select_previous_release_tag releases current = some t) ∧
      (∀ a, (releases.filter releasePasses).map tagOf = a ++ [current] →
        current ∉ a → select_previous_release_tag releases current = none) ∧
      (current ∉ (releases.filter releasePasses).map tagOf →
        select_previous_release_tag releases current =
          ((releases.filter releasePasses).map tagOf).find? (fun s => s != current)) := by
  refine ⟨?_, ?_, ?_⟩
  · intro a t b h ha
    simp [select_previous_release_tag,
      scanForCurrent_found current (releases.filter releasePasses) a t b h ha]
  · intro a h ha
    simp [select_previous_release_tag,
      scanForCurrent_last current (releases.filter releasePasses) a h ha]
  · intro h
    simp [select_previous_release_tag,
      scanForCurrent_absent current (releases.filter releasePasses) h,
      scanForOther_eq current (releases.filter releasePasses)]

/-! ### SHA deduplication and the trailing slice -/

theorem dedupGo_spec (rest : List String) :
    ∀ seen, dedupGo seen rest = specDedup (rest.filter (fun x => !seen.contains x)) := by
  induction rest with
  | nil => intro seen; simp [dedupGo, specDedup]
  | cons s rest ih =>
      intro seen
      by_cases hmem : seen.contains s
      · have hmem' : s ∈ seen := by simpa using hmem
        have hf : (s :: rest).filter (fun x => !seen.contains x) =
            rest.filter (fun x => !seen.contains x) := by
          simp [List.filter_cons, hmem']
        have hcode : dedupGo seen (s :: rest) = dedupGo seen rest := by
          simp [dedupGo, hmem, hmem']
        rw [hf, hcode]
        exact ih seen
      · have hmem' : s ∉ seen := by simpa using hmem
        have hf : (s :: rest).filter (fun x => !seen.contains x) =
            s :: rest.filter (fun x => !seen.contains x) := by
          simp [List.filter_cons, hmem']
        rw [hf]
        by_cases hempty : s = ""
        · subst hempty
          have hcode : dedupGo seen ("" :: rest) = dedupGo seen rest := by
            simp [dedupGo]
          rw [hcode, ih seen]
          simp [specDedup]
        · have hcode : dedupGo seen (s :: rest) = s :: dedupGo (s :: seen) rest := by
            simp [dedupGo, hmem, hmem', hempty]
          rw [hcode]
          simp only [specDedup, if_neg hempty]
          congr 1
          rw [ih (s :: seen), List.filter_filter]
          congr 1
          apply List.filter_congr
          intro x _
          by_cases hxs : x = s <;> by_cases hxseen : x ∈ seen <;>
            simp [List.contains_cons, bne, hxs, hxseen]

theorem dedupShas_eq_specDedup (shas : List String) : dedupShas shas = specDedup shas := by
  rw [dedupShas, dedupGo_spec]
  congr 1
  simp

/-- Counterexample to claim C6 as stated: with `max_commits = 0` and one
SHA, the deduplicated list has more than 0 entries, yet the result is the
whole list rather than its last 0 entries (Python's `l[-0:]` is `l`). -/
theorem claim_C6_ce :
    dedupe_and_limit ["a"] 0 = ["a"] ∧ 0 < (dedupShas ["a"]).length ∧
      dedupe_and_limit ["a"] 0 ≠ [] := by
  refine ⟨by decide, by decide, by decide⟩

/-- Claim C6 (amended to a positive max-commits limit): the post-processing
of `load_release_delta` first removes empty and duplicate SHAs keeping the
first occurrence of each SHA in order (`specDedup`, written from the spec
wording), and then, for every limit `N ≥ 1`, keeps exactly the trailing
`N` entries when the deduplicated list is longer than `N` and the whole
deduplicated list otherwise. -/
theorem claim_C6_amended (shas : List String) (N : Nat) (h : 1 ≤ N) :
    dedupShas shas = specDedup shas ∧
      dedupe_and_limit shas N =
        (if N < (specDedup shas).length then
          (specDedup shas).drop ((specDedup shas).length - N)
        else specDedup shas) ∧
      (N < (specDedup shas).length → (dedupe_and_limit shas N).length = N) := by
  have hd := dedupShas_eq_specDedup shas
  have hN : N ≠ 0 := by omega
  refine ⟨hd, ?_, ?_⟩
  · rw [dedupe_and_limit, hd, pyTailSlice, if_neg hN]
  · intro hlen
    rw [dedupe_and_limit, hd, if_pos hlen, pyTailSlice, if_neg hN,
      List.length_drop]
    omega

/-- Closed instantiation of claim C6 (amended) at a concrete SHA list. -/
theorem claim_C6_witness :
    dedupShas ["a", "", "a", "b", "c"] = specDedup ["a", "", "a", "b", "c"] :=
  (claim_C6_amended ["a", "", "a", "b", "c"] 2 (by decide)).1

/-! ### Ignored-path classification -/

theorem startsW_iff (a b : List Char) : startsW a b = true ↔ ∃ t, b = a ++ t := by
  induction a generalizing b with
  | nil => simp [startsW]
  | cons c cs ih =>
      cases b with
      | nil =>
          simp only [startsW, List.append_eq]
          constructor
          · intro hx; cases hx
          · rintro ⟨t, ht⟩; cases ht
      | cons x xs =>
          simp only [startsW, Bool.and_eq_true, decide_eq_true_eq, ih,
            List.cons_append, List.cons_eq_cons]
          constructor
          · rintro ⟨rfl, t, rfl⟩; exact ⟨t, rfl, rfl⟩
          · rintro ⟨t, rfl, rfl⟩; exact ⟨rfl, t, rfl⟩

/-- Modelled from the claim wording: the path, with surrounding slashes
stripped, lies under the top-level `docs/` directory. -/
def specUnderTopDocs (p : String) : Prop :=
  ∃ r, (pyStripChar '/' p).data = "docs/".data ++ r

/-- Modelled from the claim wording: the basename of the stripped path
case-insensitively starts with `README`. -/
def specReadmeBase (p : String) : Prop :=
  ∃ r, (pyUpper ⟨lastSlashComponent (pyStripChar '/' p).data⟩).data = "README".data ++ r

/-- Modelled from the claim wording: the stripped path matches one of the
configured glob patterns. -/
def specPatternMatch (p : String) : Prop :=
  ∃ pat ∈ IGNORED_PATH_PATTERNS, fnmatch (pyStripChar '/' p) pat = true

theorem is_ignored_path_cases (p : String) :
    is_ignored_path p =
      (pyStartswith "README" (pyUpper ⟨lastSlashComponent (pyStripChar '/' p).data⟩) ||
        pyStartswith "docs/" (pyStripChar '/' p) ||
        IGNORED_PATH_PATTERNS.any (fun pat => fnmatch (pyStripChar '/' p) pat)) := by
  rw [is_ignored_path]
  by_cases h1 : pyStartswith "README" (pyUpper ⟨lastSlashComponent (pyStripChar '/' p).data⟩)
  · simp [h1]
  · by_cases h2 : pyStartswith "docs/" (pyStripChar '/' p)
    · simp [h1, h2]
    · simp [h1, h2]

/-- Claim C4 (amended): `is_ignored_path` returns true exactly when the
path, with surrounding slashes stripped, starts with the top-level `docs/`
directory, or its basename case-insensitively starts with `README`, or it
matches one of the configured glob patterns; in particular every path
under the top-level `docs` directory, at any depth below it, is ignored.
Paths under a `docs` directory nested deeper (such as `src/docs/guide.md`)
are not covered by the `docs` rule. -/
theorem claim_C4_amended (p : String) :
    (is_ignored_path p = true ↔
      (specUnderTopDocs p ∨ specReadmeBase p ∨ specPatternMatch p)) ∧
      (pyStartswith "docs/" (pyStripChar '/' p) = true → is_ignored_path p = true) := by
  constructor
  · rw [is_ignored_path_cases]
    simp only [Bool.or_eq_true, List.any_eq_true]
    rw [pyStartswith, pyStartswith, startsW_iff, startsW_iff]
    unfold specUnderTopDocs specReadmeBase specPatternMatch
    tauto
  · intro h
    rw [is_ignored_path_cases]
    simp [h]

/-- Counterexample to claim C4 as stated: a path under a nested `docs`
directory is not ignored. -/
theorem claim_C4_ce : is_ignored_path "src/docs/guide.md" = false := by decide

/-- Closed instantiation of claim C4 (amended) at a deep path below the
top-level `docs` directory. -/
theorem claim_C4_witness : is_ignored_path "docs/deep/tree/file.bin" = true :=
  (claim_C4_amended "docs/deep/tree/file.bin").2 (by decide)

/-! ### File partitioning in curation -/

/-- A commit payload has at least one shipping change: some file with a
non-empty filename that is not an ignored path. -/
def has_shipping (p : CommitPayload) : Bool :=
  p.files.any (fun f => f.filename != "" && !is_ignored_path f.filename)

theorem curateFiles_names (files : List FilePayload) :
    ∀ b : Nat, (∀ f ∈ files, f.filename ≠ "") →
      (curateFiles files b).1.map (fun sf => sf.filename) =
          (files.map (fun f => f.filename)).filter (fun n => !is_ignored_path n) ∧
        (curateFiles files b).2.1 =
          (files.map (fun f => f.filename)).filter (fun n => is_ignored_path n) := by
  induction files with
  | nil => intro b _; simp [curateFiles]
  | cons f rest ih =>
      intro b h
      have hf : f.filename ≠ "" := h f (List.mem_cons_self _ _)
      have hrest : ∀ g ∈ rest, g.filename ≠ "" :=
        fun g hg => h g (List.mem_cons_of_mem _ hg)
      by_cases hig : is_ignored_path f.filename
      · rcases hcf : curateFiles rest b with ⟨ship, ign, b'⟩
        have := ih b hrest
        rw [hcf] at this
        simp only at this
        simp [curateFiles, hf, hig, hcf, List.filter_cons, this.1, this.2]
      · rcases hcf : curateFiles rest (truncate_patch f.patch b).2 with ⟨ship, ign, b'⟩
        have := ih (truncate_patch f.patch b).2 hrest
        rw [hcf] at this
        simp only at this
        simp [curateFiles, hf, hig, hcf, List.filter_cons, this.1, this.2]

theorem curateFiles_ship_empty_iff (files : List FilePayload) (b : Nat)
    (h : ∀ f ∈ files, f.filename ≠ "") :
    (curateFiles files b).1.isEmpty =
      !files.any (fun f => f.filename != "" && !is_ignored_path f.filename) := by
  have hn := (curateFiles_names files b h).1
  rcases hcf : curateFiles files b with ⟨ship, ign, b'⟩
  rw [hcf] at hn
  simp only at hn
  cases hs : ship.isEmpty
  · have hne : ship ≠ [] := by
      intro hx
      rw [hx] at hs
      simp at hs
    obtain ⟨s0, ss, rfl⟩ := List.exists_cons_of_ne_nil hne
    have : s0.filename ∈ (files.map (fun f => f.filename)).filter
        (fun n => !is_ignored_path n) := by
      rw [← hn]; simp
    simp only [List.mem_filter, List.mem_map] at this
    obtain ⟨⟨f0, hf0, hname⟩, hnig⟩ := this
    have : files.any (fun f => f.filename != "" && !is_ignored_path f.filename) = true := by
      refine List.any_eq_true.mpr ⟨f0, hf0, ?_⟩
      have hcond := h f0 hf0
      rw [hname] at hcond
      rw [hname]
      simp [hcond, hnig]
    simp [this]
  · have hvals : (files.map (fun f => f.filename)).filter
        (fun n => !is_ignored_path n) = [] := by
      rw [← hn]
      simp only [List.isEmpty_iff] at hs
      simp [hs]
    have : files.any (fun f => f.filename != "" && !is_ignored_path f.filename) = false := by
      by_contra hx
      rw [Bool.not_eq_false] at hx
      obtain ⟨f0, hf0, hcond⟩ := List.any_eq_true.mp hx
      simp only [Bool.and_eq_true, bne_iff_ne] at hcond
      have : f0.filename ∈ (files.map (fun f => f.filename)).filter
          (fun n => !is_ignored_path n) := by
        simp only [List.mem_filter, List.mem_map]
        exact ⟨⟨f0, hf0, rfl⟩, hcond.2⟩
      rw [hvals] at this
      cases this
    simp [this]

theorem curateLoop_curated (ps : List CommitPayload) :
    ∀ b : Nat, (∀ p ∈ ps, ∀ f ∈ p.files, f.filename ≠ "") →
      (curateLoop ps b).1.map (fun c => c.sha) =
          (ps.filter has_shipping).map (fun p => p.sha) ∧
        (curateLoop ps b).2.2.1 = (ps.filter (fun p => !has_shipping p)).length := by
  induction ps with
  | nil => intro b _; simp [curateLoop]
  | cons p rest ih =>
      intro b h
      have hp : ∀ f ∈ p.files, f.filename ≠ "" := h p (List.mem_cons_self _ _)
      have hrest : ∀ q ∈ rest, ∀ f ∈ q.files, f.filename ≠ "" :=
        fun q hq => h q (List.mem_cons_of_mem _ hq)
      rcases hcf : curateFiles p.files b with ⟨ship, ign, b1⟩
      have hempty := curateFiles_ship_empty_iff p.files b hp
      rw [hcf] at hempty
      simp only at hempty
      have hihb := ih b1 hrest
      rcases hcl : curateLoop rest b1 with ⟨cur, cs, ci, sf, igf, bEnd⟩
      rw [hcl] at hihb
      simp only at hihb
      cases hs : has_shipping p
      · have hse : ship.isEmpty = true := by
          rw [hempty, has_shipping] at *
          simp [hs]
        simp [curateLoop, hcf, hcl, hse, List.filter_cons, hs, hihb.1, hihb.2]
      · have hse : ship.isEmpty = false := by
          rw [hempty, has_shipping] at *
          simp [hs]
        simp [curateLoop, hcf, hcl, hse, List.filter_cons, hs, hihb.1, hihb.2]

/-- Claim C2: for commits whose file entries carry (non-empty) filenames,
the shipping-file list and the ignored-file list of the curation pass are
exactly the complementary `is_ignored_path` filters of the commit's
changed-file names (so the two lists partition the changed files, whatever
the patch budget); a commit appears in the curated output exactly when it
has at least one shipping file, and each all-ignored commit is counted
once in `commits_ignored_only`. -/
theorem claim_C2 (ps : List CommitPayload) (b : Nat)
    (h : ∀ p ∈ ps, ∀ f ∈ p.files, f.filename ≠ "") :
    (∀ p ∈ ps, ∀ bud : Nat,
        (curateFiles p.files bud).1.map (fun sf => sf.filename) =
            (p.files.map (fun f => f.filename)).filter (fun n => !is_ignored_path n) ∧
          (curateFiles p.files bud).2.1 =
            (p.files.map (fun f => f.filename)).filter (fun n => is_ignored_path n)) ∧
      (curate_commit_payloads ps b).1.map (fun c => c.sha) =
        (ps.filter has_shipping).map (fun p => p.sha) ∧
      (curate_commit_payloads ps b).2.commits_ignored_only =
        (ps.filter (fun p => !has_shipping p)).length := by
  have hcl := curateLoop_curated ps b h
  refine ⟨?_, ?_, ?_⟩
  · intro p hp bud
    exact curateFiles_names p.files bud (h p hp)
  · rcases hloop : curateLoop ps b with ⟨cur, cs, ci, sf, igf, bEnd⟩
    rw [hloop] at hcl
    simpa [curate_commit_payloads, hloop] using hcl.1
  · rcases hloop : curateLoop ps b with ⟨cur, cs, ci, sf, igf, bEnd⟩
    rw [hloop] at hcl
    simpa [curate_commit_payloads, hloop] using hcl.2

/-- Closed instantiation of claim C2: one commit with a shipping file, one
commit with only ignored files. -/
theorem claim_C2_witness :
    (curate_commit_payloads
        [{ sha := "aaa", message := "feat: x", html_url := "u1",
           files := [{ filename := "src/a.py", status := "modified", additions := 1,
                       deletions := 0, changes := 1, patch := "p" }] },
         { sha := "bbb", message := "docs: y", html_url := "u2",
           files := [{ filename := "docs/b.md", status := "modified", additions := 2,
                       deletions := 0, changes := 2, patch := "q" }] }] 100).1.map
        (fun c => c.sha) =
      ([{ sha := "aaa", message := "feat: x", html_url := "u1",
          files := [{ filename := "src/a.py", status := "modified", additions := 1,
                      deletions := 0, changes := 1, patch := "p" }] },
        { sha := "bbb", message := "docs: y", html_url := "u2",
          files := [{ filename := "docs/b.md", status := "modified", additions := 2,
                      deletions := 0, changes := 2, patch := "q" }] }].filter
          has_shipping).map (fun p => p.sha) :=
  (claim_C2 _ 100 (by decide)).2.1

/-! ### Patch-budget accounting -/

/-- Patch characters emitted into the shipping records of one file loop. -/
def filesEmitted (files : List FilePayload) (b : Nat) : Nat :=
  (((curateFiles files b).1.map (fun sf => pyLen sf.patch))).sum

theorem truncate_patch_zero (text : String) : truncate_patch text 0 = ("", 0) := by
  simp [truncate_patch]

theorem truncate_patch_budget_eq (text : String) (n : Nat) :
    (truncate_patch text n).2 = n - pyLen (truncate_patch text n).1 := by
  by_cases h : n = 0 || text = ""
  · simp [truncate_patch, h, pyLen]
  · simp only [truncate_patch, h, Bool.false_eq_true, if_false]

theorem marker_len : pyLen "\n... [truncated]" = 16 := by decide

theorem pyLen_append (s t : String) : pyLen (s ++ t) = pyLen s + pyLen t := by
  simp [pyLen, String.data_append]

theorem truncate_patch_facts (text : String) (n : Nat) :
    (truncate_patch text n).2 ≤ n ∧
      pyLen (truncate_patch text n).1 ≤ n + 16 ∧
      ((truncate_patch text n).2 ≠ 0 →
        pyLen (truncate_patch text n).1 + (truncate_patch text n).2 = n) := by
  by_cases h : n = 0 || text = ""
  · simp [truncate_patch, h, pyLen]
  · simp only [truncate_patch, h, Bool.false_eq_true, if_false]
    by_cases hlong : pyLen text > pyLen (pyTake n text)
    · have hlen : pyLen (pyTake n text) = n := by
        simp only [pyLen, pyTake, List.length_take] at hlong ⊢
        omega
      have hmark : pyLen (pyTake n text ++ "\n... [truncated]") = n + 16 := by
        rw [pyLen_append, hlen, marker_len]
      simp only [hlong, if_true, hmark]
      omega
    · have hle : pyLen (pyTake n text) ≤ n := by
        simp [pyLen, pyTake, List.length_take]
      simp only [hlong, if_false]
      simp only [pyLen, pyTake, List.length_take] at hlong hle ⊢
      omega

theorem curateFiles_budget (files : List FilePayload) :
    ∀ b : Nat,
      (curateFiles files b).2.2 ≤ b ∧
        filesEmitted files b ≤ b + 16 ∧
        ((curateFiles files b).2.2 ≠ 0 →
          filesEmitted files b + (curateFiles files b).2.2 ≤ b) ∧
        (b = 0 → filesEmitted files b = 0 ∧ (curateFiles files b).2.2 = 0 ∧
          ∀ sf ∈ (curateFiles files b).1, sf.patch = "") := by
  induction files with
  | nil =>
      intro b
      simp [curateFiles, filesEmitted]
  | cons f rest ih =>
      intro b
      by_cases hskip : f.filename = ""
      · have : curateFiles (f :: rest) b = curateFiles rest b := by
          simp [curateFiles, hskip]
        have hfe : filesEmitted (f :: rest) b = filesEmitted rest b := by
          simp [filesEmitted, this]
        rw [this, hfe]
        exact ih b
      · by_cases hig : is_ignored_path f.filename
        · rcases hcf : curateFiles rest b with ⟨ship, ign, b'⟩
          have hthis : curateFiles (f :: rest) b = (ship, f.filename :: ign, b') := by
            simp [curateFiles, hskip, hig, hcf]
          have hihb := ih b
          rw [hcf] at hihb
          have hfe : filesEmitted (f :: rest) b = filesEmitted rest b := by
            simp [filesEmitted, hthis, hcf]
          rw [hthis, hfe]
          simp only at hihb ⊢
          exact hihb
        · rcases htr : truncate_patch f.patch b with ⟨snip, b1⟩
          rcases hcf : curateFiles rest b1 with ⟨ship, ign, b'⟩
          have hthis : curateFiles (f :: rest) b =
              ({ filename := f.filename, status := f.status, additions := f.additions,
                 deletions := f.deletions, changes := f.changes, patch := snip } :: ship,
               ign, b') := by
            simp [curateFiles, hskip, hig, htr, hcf]
          have htf := truncate_patch_facts f.patch b
          rw [htr] at htf
          simp only at htf
          have hihb := ih b1
          rw [hcf] at hihb
          simp only at hihb
          have hfe2 : filesEmitted rest b1 = (ship.map (fun sf => pyLen sf.patch)).sum := by
            rw [filesEmitted, hcf]
          rw [hfe2] at hihb
          have hfe : filesEmitted (f :: rest) b =
              pyLen snip + (ship.map (fun sf => pyLen sf.patch)).sum := by
            simp [filesEmitted, hthis]
          rw [hthis]
          simp only
          rw [hfe]
          obtain ⟨hihb1, hihb2, hihb3, hihb4⟩ := hihb
          obtain ⟨htf1, htf2, htf3⟩ := htf
          by_cases hb1 : b1 = 0
          · obtain ⟨he0, hb0, hp0⟩ := hihb4 hb1
            refine ⟨by omega, by omega, ?_, ?_⟩
            · intro hb'
              exact (hb' hb0).elim
            · intro hb
              subst hb
              have hpair : (snip, b1) = (("" : String), (0 : Nat)) :=
                htr.symm.trans (truncate_patch_zero f.patch)
              have hsnip : snip = "" := congrArg Prod.fst hpair
              refine ⟨?_, hb0, ?_⟩
              · rw [hsnip]
                have hz : pyLen "" = 0 := by decide
                omega
              · intro sf hsf
                rcases List.mem_cons.mp hsf with h1 | h2
                · rw [h1]
                  exact hsnip
                · exact hp0 sf h2
          · have hsum := htf3 hb1
            refine ⟨by omega, by omega, ?_, ?_⟩
            · intro hb'
              have := hihb3 hb'
              omega
            · intro hb
              subst hb
              have hpair : (snip, b1) = (("" : String), (0 : Nat)) :=
                htr.symm.trans (truncate_patch_zero f.patch)
              have : b1 = 0 := congrArg Prod.snd hpair
              exact (hb1 this).elim

/-- Patch characters emitted across the whole commit loop. -/
def loopEmitted (ps : List CommitPayload) (b : Nat) : Nat :=
  emittedPatchChars (curateLoop ps b).1

theorem curateLoop_budget (ps : List CommitPayload) :
    ∀ b : Nat,
      (curateLoop ps b).2.2.2.2.2 ≤ b ∧
        loopEmitted ps b ≤ b + 16 ∧
        ((curateLoop ps b).2.2.2.2.2 ≠ 0 →
          loopEmitted ps b + (curateLoop ps b).2.2.2.2.2 ≤ b) ∧
        (b = 0 → loopEmitted ps b = 0 ∧ (curateLoop ps b).2.2.2.2.2 = 0) := by
  induction ps with
  | nil =>
      intro b
      simp [curateLoop, loopEmitted, emittedPatchChars]
  | cons p rest ih =>
      intro b
      rcases hcf : curateFiles p.files b with ⟨ship, ign, b1⟩
      rcases hcl : curateLoop rest b1 with ⟨cur, cs, ci, sf, igf, bEnd⟩
      have hfb := curateFiles_budget p.files b
      rw [hcf] at hfb
      simp only at hfb
      have hfe : filesEmitted p.files b = (ship.map (fun s => pyLen s.patch)).sum := by
        rw [filesEmitted, hcf]
      rw [hfe] at hfb
      have hihb := ih b1
      rw [hcl] at hihb
      have hle : loopEmitted rest b1 = emittedPatchChars cur := by
        rw [loopEmitted, hcl]
      rw [hle] at hihb
      simp only at hihb
      have hout : loopEmitted (p :: rest) b =
          (if ship.isEmpty then 0 else (ship.map (fun s => pyLen s.patch)).sum) +
            emittedPatchChars cur ∧
          (curateLoop (p :: rest) b).2.2.2.2.2 = bEnd := by
        by_cases hse : ship.isEmpty
        · have hship : ship = [] := List.isEmpty_iff.mp hse
          constructor
          · rw [loopEmitted]
            simp [curateLoop, hcf, hcl, hse, emittedPatchChars]
          · simp [curateLoop, hcf, hcl, hse]
        · constructor
          · rw [loopEmitted]
            simp [curateLoop, hcf, hcl, hse, emittedPatchChars]
          · simp [curateLoop, hcf, hcl, hse]
      rw [hout.1, hout.2]
      have hshipsum : (if ship.isEmpty then 0
          else (ship.map (fun s => pyLen s.patch)).sum) ≤
          (ship.map (fun s => pyLen s.patch)).sum := by
        by_cases hse : ship.isEmpty <;> simp [hse]
      by_cases hb1 : b1 = 0
      · subst hb1
        obtain ⟨he0, hb0⟩ := hihb.2.2.2 rfl
        refine ⟨by omega, by omega, ?_, ?_⟩
        · intro hbe
          rw [hb0] at hbe
          cases hbe rfl
        · intro hb
          subst hb
          obtain ⟨hfe0, _, _⟩ := hfb.2.2.2 rfl
          constructor
          · omega
          · omega
      · have hsum := hfb.2.2.1 hb1
        refine ⟨by omega, by omega, by omega, ?_⟩
        intro hb
        subst hb
        obtain ⟨hfe0, hb10, _⟩ := hfb.2.2.2 rfl
        cases hb1 hb10

/-- Counterexample to claim C1 as stated: with budget 1 and a two-character
patch, the single emitted snippet (prefix plus truncation marker) has 17
characters, exceeding the budget of 1. -/
theorem claim_C1_ce :
    emittedPatchChars (curate_commit_payloads
        [{ sha := "s", message := "m", html_url := "u",
           files := [{ filename := "src/a.py", status := "modified", additions := 1,
                       deletions := 0, changes := 1, patch := "ab" }] }] 1).1 = 17 ∧
      ¬(17 : Nat) ≤ 1 :=
  ⟨by decide, by decide⟩

/-- Claim C1 (amended): the total patch text emitted by curation is at most
the initial budget `B` plus the length of the truncation marker (a single
straddling snippet may overflow by the marker); once the remaining budget
reaches 0 every subsequent file's curated patch is the empty string and
the budget stays 0; the budget is decremented by the emitted length,
clamped at zero; and the marker is appended exactly when the original
patch was longer than the prefix taken. -/
theorem claim_C1_amended (ps : List CommitPayload) (B : Nat) :
    emittedPatchChars (curate_commit_payloads ps B).1 ≤ B + pyLen "\n... [truncated]" ∧
      (∀ text, truncate_patch text 0 = ("", 0)) ∧
      (∀ files : List FilePayload, (curateFiles files 0).2.2 = 0 ∧
        ∀ sf ∈ (curateFiles files 0).1, sf.patch = "") ∧
      (∀ text n, (truncate_patch text n).2 = n - pyLen (truncate_patch text n).1) ∧
      (∀ text n, n ≠ 0 → text ≠ "" → n < pyLen text →
        (truncate_patch text n).1 = pyTake n text ++ "\n... [truncated]") ∧
      (∀ text n, n ≠ 0 → text ≠ "" → pyLen text ≤ n →
        (truncate_patch text n).1 = text) := by
  refine ⟨?_, truncate_patch_zero, ?_, truncate_patch_budget_eq, ?_, ?_⟩
  · have hb := (curateLoop_budget ps B).2.1
    rw [marker_len]
    rcases hcl : curateLoop ps B with ⟨cur, cs, ci, sf, igf, bEnd⟩
    rw [loopEmitted, hcl] at hb
    simp only at hb
    simpa [curate_commit_payloads, hcl] using hb
  · intro files
    have h := (curateFiles_budget files 0).2.2.2 rfl
    exact ⟨h.2.1, h.2.2⟩
  · intro text n hn ht hlong
    have hcond : (n = 0 || text = "") = false := by simp [hn, ht]
    have htake : pyLen (pyTake n text) = n := by
      simp only [pyLen, pyTake, List.length_take]
      simp only [pyLen] at hlong
      omega
    have hgt : pyLen text > pyLen (pyTake n text) := by
      rw [htake]
      exact hlong
    simp only [truncate_patch, hcond, Bool.false_eq_true, if_false]
    rw [if_pos hgt]
  · intro text n hn ht hshort
    have hcond : (n = 0 || text = "") = false := by simp [hn, ht]
    have htake : pyTake n text = text := by
      simp only [pyTake, pyLen] at hshort ⊢
      rw [List.take_of_length_le hshort]
    have hngt : ¬pyLen text > pyLen (pyTake n text) := by
      rw [htake]
      omega
    simp only [truncate_patch, hcond, Bool.false_eq_true, if_false]
    rw [if_neg hngt, htake]

/-- Closed instantiation of claim C1 (amended): marker behaviour of
`truncate_patch` at concrete inputs. -/
theorem claim_C1_witness :
    (truncate_patch "abcdef" 3).1 = pyTake 3 "abcdef" ++ "\n... [truncated]" ∧
      (truncate_patch "ab" 5).1 = "ab" :=
  ⟨(claim_C1_amended [] 0).2.2.2.2.1 "abcdef" 3 (by decide) (by decide) (by decide),
   (claim_C1_amended [] 0).2.2.2.2.2 "ab" 5 (by decide) (by decide) (by decide)⟩

/-! ### The prompt template -/

theorem pySplitChar_no_sep (sep : Char) (l : List Char) (h : ∀ c ∈ l, c ≠ sep) :
    pySplitChar sep l = [l] := by
  induction l with
  | nil => simp [pySplitChar]
  | cons c xs ih =>
      have hc : c ≠ sep := h c (List.mem_cons_self _ _)
      rw [pySplitChar, if_neg hc, ih (fun d hd => h d (List.mem_cons_of_mem _ hd))]


/-- The character list `x` occurs contiguously inside `l`. -/
def occursIn (x l : List Char) : Prop :=
  ∃ p q, l = p ++ x ++ q

/-- Forget a curated commit's ignored-file list. -/
def scrubCommit (c : CuratedCommit) : CuratedCommit :=
  { c with ignored_files := [] }

/-- Forget every ignored-file list of a prompt context. -/
def scrubIgnored (ctx : PromptContext) : PromptContext :=
  { ctx with commits := ctx.commits.map scrubCommit }

theorem pySplitChar_ne_nil (sep : Char) (l : List Char) : pySplitChar sep l ≠ [] := by
  cases l with
  | nil => simp [pySplitChar]
  | cons c rest =>
      rw [pySplitChar]
      by_cases hc : c = sep
      · simp [hc]
      · rw [if_neg hc]
        rcases h : pySplitChar sep rest with _ | ⟨p, m⟩ <;> simp

theorem pySplitChar_break (sep : Char) (a b : List Char) :
    pySplitChar sep (a ++ sep :: b) = pySplitChar sep a ++ pySplitChar sep b := by
  induction a with
  | nil => simp [pySplitChar]
  | cons c a' ih =>
      by_cases hc : c = sep
      · subst hc
        rw [List.cons_append, pySplitChar, if_pos rfl, ih, pySplitChar, if_pos rfl,
          List.cons_append]
      · obtain ⟨p, m, hpm⟩ : ∃ p m, pySplitChar sep a' = p :: m := by
          rcases h : pySplitChar sep a' with _ | ⟨p, m⟩
          · exact absurd h (pySplitChar_ne_nil sep a')
          · exact ⟨p, m, rfl⟩
        rw [List.cons_append, pySplitChar, if_neg hc, ih, hpm, List.cons_append,
          pySplitChar, if_neg hc, hpm, List.cons_append]

theorem cpfx_pre_left (a b : List Char) : ∃ t, cpfx a b ++ t = a := by
  induction a generalizing b with
  | nil => exact ⟨[], by cases b <;> simp [cpfx]⟩
  | cons x xs ih =>
      cases b with
      | nil => exact ⟨x :: xs, by simp [cpfx]⟩
      | cons y ys =>
          by_cases hxy : x = y
          · obtain ⟨t, ht⟩ := ih ys
            exact ⟨t, by simp [cpfx, hxy, ht]⟩
          · exact ⟨x :: xs, by simp [cpfx, hxy]⟩

theorem cpfx_pre_right (a b : List Char) : ∃ t, cpfx a b ++ t = b := by
  induction a generalizing b with
  | nil => exact ⟨b, by cases b <;> simp [cpfx]⟩
  | cons x xs ih =>
      cases b with
      | nil => exact ⟨[], by simp [cpfx]⟩
      | cons y ys =>
          by_cases hxy : x = y
          · obtain ⟨t, ht⟩ := ih ys
            exact ⟨t, by simp [cpfx, hxy, ht]⟩
          · exact ⟨y :: ys, by simp [cpfx, hxy]⟩

theorem pre_trans {a b c : List Char} (h1 : ∃ t, a ++ t = b) (h2 : ∃ t, b ++ t = c) :
    ∃ t, a ++ t = c := by
  obtain ⟨t1, rfl⟩ := h1
  obtain ⟨t2, rfl⟩ := h2
  exact ⟨t1 ++ t2, by simp [List.append_assoc]⟩

theorem foldl_cpfx_pre (is : List (List Char)) :
    ∀ i : List Char, ∀ j ∈ i :: is, ∃ t, is.foldl cpfx i ++ t = j := by
  induction is with
  | nil =>
      intro i j hj
      rw [List.mem_singleton] at hj
      subst hj
      exact ⟨[], by simp⟩
  | cons k ks ih =>
      intro i j hj
      rcases List.mem_cons.mp hj with rfl | hj2
      · exact pre_trans (ih (cpfx j k) (cpfx j k) (List.mem_cons_self _ _))
          (cpfx_pre_left j k)
      · rcases List.mem_cons.mp hj2 with rfl | hj3
        · exact pre_trans (ih (cpfx i j) (cpfx i j) (List.mem_cons_self _ _))
            (cpfx_pre_right i j)
        · exact ih (cpfx i k) j (List.mem_cons_of_mem _ hj3)

theorem margin_pre (lines : List (List Char)) (l : List Char) (hl : l ∈ lines)
    (hne : l ≠ []) : ∃ t, marginOf lines ++ t = lineIndent l := by
  have hmemi : lineIndent l ∈ (lines.filter (fun x => !x.isEmpty)).map lineIndent := by
    refine List.mem_map_of_mem _ (List.mem_filter.mpr ⟨hl, ?_⟩)
    simp [hne]
  rcases hfm : (lines.filter (fun x => !x.isEmpty)).map lineIndent with _ | ⟨i, is⟩
  · rw [hfm] at hmemi
    cases hmemi
  · rw [hfm] at hmemi
    simp only [marginOf]
    rw [hfm]
    exact foldl_cpfx_pre is i (lineIndent l) hmemi

theorem mem_joinNl_occurs (pieces : List (List Char)) (x : List Char) (hx : x ∈ pieces) :
    ∃ p q, joinNl pieces = p ++ x ++ q := by
  induction pieces with
  | nil => cases hx
  | cons y ys ih =>
      rcases List.mem_cons.mp hx with rfl | hy
      · cases ys with
        | nil => exact ⟨[], [], by simp [joinNl]⟩
        | cons z zs => exact ⟨[], '\n' :: joinNl (z :: zs), by simp [joinNl]⟩
      · obtain ⟨p, q, hpq⟩ := ih hy
        have hne : ys ≠ [] := List.ne_nil_of_mem hy
        cases ys with
        | nil => exact absurd rfl hne
        | cons z zs =>
            exact ⟨y ++ '\n' :: p, q, by simp [joinNl, hpq, List.append_assoc]⟩

theorem dedent_line_occurs (lines : List (List Char)) (L lit : List Char)
    (hmem : L ∈ lines) (hne : L ≠ []) (hblank : blankWsLine L = L)
    (hlit : L.dropWhile isSpTab = lit) :
    ∃ p q, joinNl (dedentLines lines) = p ++ lit ++ q := by
  have hmemb : L ∈ lines.map blankWsLine := by
    have := List.mem_map_of_mem blankWsLine hmem
    rw [hblank] at this
    exact this
  obtain ⟨t, hmt⟩ := margin_pre (lines.map blankWsLine) L hmemb hne
  have hdec : L = marginOf (lines.map blankWsLine) ++ (t ++ L.dropWhile isSpTab) := by
    conv_lhs => rw [← List.takeWhile_append_dropWhile (p := isSpTab) (l := L)]
    rw [← List.append_assoc, hmt]
    rfl
  have hstart : startsW (marginOf (lines.map blankWsLine)) L = true :=
    (startsW_iff _ _).mpr ⟨t ++ L.dropWhile isSpTab, hdec⟩
  have hgval : (if startsW (marginOf (lines.map blankWsLine)) L then
      L.drop (marginOf (lines.map blankWsLine)).length else L) = t ++ lit := by
    rw [if_pos hstart]
    conv_lhs => rw [hdec]
    rw [List.drop_left, hlit]
  have hgm : (t ++ lit) ∈ dedentLines lines := by
    rw [dedentLines]
    have := List.mem_map_of_mem (fun l => if startsW (marginOf (lines.map blankWsLine)) l
        then l.drop (marginOf (lines.map blankWsLine)).length else l) hmemb
    simp only at this
    rw [hgval] at this
    exact this
  obtain ⟨p, q, hpq⟩ := mem_joinNl_occurs _ _ hgm
  exact ⟨p ++ t, q, by rw [hpq]; simp [List.append_assoc]⟩

theorem occursIn_reverse {x l : List Char} (h : occursIn x l) :
    occursIn x.reverse l.reverse := by
  obtain ⟨a, b, rfl⟩ := h
  exact ⟨b.reverse, a.reverse, by simp [List.reverse_append, List.append_assoc]⟩

theorem occursIn_dropWhile (p : Char → Bool) {x : List Char} (l : List Char)
    (hne : x ≠ []) (hx : p (x.headD ' ') = false) (h : occursIn x l) :
    occursIn x (l.dropWhile p) := by
  obtain ⟨a, b, rfl⟩ := h
  induction a with
  | nil =>
      cases x with
      | nil => exact absurd rfl hne
      | cons c x' =>
          simp only [List.headD_cons] at hx
          refine ⟨[], b, ?_⟩
          simp [List.dropWhile_cons, hx]
  | cons d a' ih =>
      by_cases hd : p d
      · rw [List.cons_append, List.cons_append, List.dropWhile_cons_of_pos hd]
        exact ih
      · rw [List.cons_append, List.cons_append, List.dropWhile_cons_of_neg hd]
        exact ⟨d :: a', b, rfl⟩

theorem occursIn_pyStrip {x : List Char} (l : List Char) (hne : x ≠ [])
    (hh : isPySpace (x.headD ' ') = false)
    (ht : isPySpace (x.reverse.headD ' ') = false) (h : occursIn x l) :
    occursIn x (pyStripL l) := by
  have h1 : occursIn x (l.dropWhile isPySpace) := occursIn_dropWhile isPySpace l hne hh h
  have h2 : occursIn x.reverse ((l.dropWhile isPySpace).reverse) := occursIn_reverse h1
  have hner : x.reverse ≠ [] := by
    intro hx
    apply hne
    have := congrArg List.reverse hx
    simpa using this
  have h3 : occursIn x.reverse (((l.dropWhile isPySpace).reverse).dropWhile isPySpace) :=
    occursIn_dropWhile isPySpace _ hner ht h2
  have h4 := occursIn_reverse h3
  rw [List.reverse_reverse] at h4
  exact h4

theorem occursIn_append_right {x l : List Char} (r : List Char) (h : occursIn x l) :
    occursIn x (l ++ r) := by
  obtain ⟨a, b, rfl⟩ := h
  exact ⟨a, b ++ r, by simp [List.append_assoc]⟩

theorem lineReturnOnly_mem (ctx : PromptContext) :
    lineReturnOnly ∈ pySplitChar '\n' (rawPrompt ctx) := by
  rw [rawPrompt, pySplitChar_break, pySplitChar_break,
    pySplitChar_no_sep '\n' lineReturnOnly (by decide)]
  simp

theorem lineOutputBullets_mem (ctx : PromptContext) :
    lineOutputBullets ∈ pySplitChar '\n' (rawPrompt ctx) := by
  rw [rawPrompt, pySplitChar_break, pySplitChar_break, pySplitChar_break,
    pySplitChar_no_sep '\n' lineOutputBullets (by decide)]
  simp

/-- Claim C7: the prompt built by `build_prompt` always contains the
literal output-contract lines `- Return ONLY markdown bullet lines.` and
`- Output 3 to 6 bullets.`; the prompt does not depend on the commits'
ignored-file lists in any way (so no ignored filename is rendered into the
commit listing, which lists only shipping files); and when no commits
survived curation the commit listing is exactly the single literal
placeholder line. -/
theorem claim_C7 (ctx : PromptContext) :
    occursIn "- Return ONLY markdown bullet lines.".data (build_prompt ctx).data ∧
      occursIn "- Output 3 to 6 bullets.".data (build_prompt ctx).data ∧
      build_prompt (scrubIgnored ctx) = build_prompt ctx ∧
      (ctx.commits = [] → commit_lines ctx.commits =
        ["- No shipping-relevant commit/file details were extracted."]) := by
  have hone : ∀ lit L : List Char, L ∈ pySplitChar '\n' (rawPrompt ctx) → L ≠ [] →
      blankWsLine L = L → L.dropWhile isSpTab = lit → lit ≠ [] →
      isPySpace (lit.headD ' ') = false → isPySpace (lit.reverse.headD ' ') = false →
      occursIn lit (build_prompt ctx).data := by
    intro lit L hmem hne hblank hlit hlitne hlh hlt
    obtain ⟨p, q, hpq⟩ := dedent_line_occurs _ L lit hmem hne hblank hlit
    have hocc : occursIn lit (pythonDedentL (rawPrompt ctx)) := ⟨p, q, by
      rw [pythonDedentL, hpq]⟩
    have hstripped := occursIn_pyStrip _ hlitne hlh hlt hocc
    have := occursIn_append_right ['\n'] hstripped
    exact this
  refine ⟨?_, ?_, ?_, ?_⟩
  · exact hone _ lineReturnOnly (lineReturnOnly_mem ctx) (by decide) (by decide)
      (by decide) (by decide) (by decide) (by decide)
  · exact hone _ lineOutputBullets (lineOutputBullets_mem ctx) (by decide) (by decide)
      (by decide) (by decide) (by decide) (by decide)
  · have hmap : (ctx.commits.map scrubCommit).map commitEntryLines =
        ctx.commits.map commitEntryLines := by
      rw [List.map_map]
      exact List.map_congr_left (fun c _ => rfl)
    have hcl : commit_lines ((scrubIgnored ctx).commits) = commit_lines ctx.commits := by
      simp only [scrubIgnored]
      rw [commit_lines, commit_lines, hmap]
    simp only [build_prompt, pythonDedentL, rawPrompt, promptTail, joinNlStr]
    rw [hcl]
    rfl
  · intro h
    rw [h]
    simp [commit_lines]

/-- Closed instantiation of claim C7: the placeholder line on an empty
curated-commit list. -/
theorem claim_C7_witness :
    commit_lines ([] : List CuratedCommit) =
      ["- No shipping-relevant commit/file details were extracted."] :=
  (claim_C7 ⟨"o/r", "v1", none, "", ⟨0, 0, 0, 0, 0⟩, []⟩).2.2.2 rfl

/-! ### Release-URL parsing -/

/-- Did `parse_release_url` succeed? -/
def isOkB : Except String (String × String) → Bool
  | .ok _ => true
  | .error _ => false

theorem takeWhile_append_all (p : Char → Bool) (xs ys : List Char)
    (h : ∀ c ∈ xs, p c = true) :
    (xs ++ ys).takeWhile p = xs ++ ys.takeWhile p := by
  induction xs with
  | nil => simp
  | cons c xs ih =>
      have hc : p c = true := h c (List.mem_cons_self _ _)
      simp only [List.cons_append, List.takeWhile_cons, hc, if_true]
      rw [ih (fun d hd => h d (List.mem_cons_of_mem _ hd))]

theorem takeWhile_all (p : Char → Bool) (l : List Char) (h : ∀ c ∈ l, p c = true) :
    l.takeWhile p = l := by
  induction l with
  | nil => simp
  | cons c xs ih =>
      have hc : p c = true := h c (List.mem_cons_self _ _)
      simp only [List.takeWhile_cons, hc, if_true]
      rw [ih (fun d hd => h d (List.mem_cons_of_mem _ hd))]

theorem pySplitChar_append (sep : Char) (xs ys : List Char)
    (h : ∀ c ∈ xs, c ≠ sep) :
    pySplitChar sep (xs ++ sep :: ys) = xs :: pySplitChar sep ys := by
  induction xs with
  | nil => simp [pySplitChar]
  | cons c xs ih =>
      have hc : c ≠ sep := h c (List.mem_cons_self _ _)
      rw [List.cons_append, pySplitChar, if_neg hc,
        ih (fun d hd => h d (List.mem_cons_of_mem _ hd))]

theorem pyUnquoteGo_no_pct (fuel : Nat) :
    ∀ l : List Char, (∀ c ∈ l, c ≠ '%') → pyUnquoteGo fuel l = l := by
  induction fuel with
  | zero => intro l _; rfl
  | succ fuel ih =>
      intro l h
      cases l with
      | nil => rfl
      | cons c xs =>
          have hc : c ≠ '%' := h c (List.mem_cons_self _ _)
          have hxs : ∀ d ∈ xs, d ≠ '%' := fun d hd => h d (List.mem_cons_of_mem _ hd)
          simp only [pyUnquoteGo]
          rw [if_neg hc, ih xs hxs]

theorem pyUnquoteL_no_pct (l : List Char) (h : ∀ c ∈ l, c ≠ '%') :
    pyUnquoteL l = l :=
  pyUnquoteGo_no_pct _ l h

/-- Characters that are inert for URL parsing: not a separator, query,
fragment, percent-escape, or params character. -/
def urlInert (c : Char) : Bool :=
  c ≠ '/' && c ≠ '?' && c ≠ '#' && c ≠ '%' && c ≠ ';'

theorem mem_of_mem_takeWhile (p : Char → Bool) (l : List Char) (c : Char)
    (h : c ∈ l.takeWhile p) : c ∈ l := by
  induction l with
  | nil => simpa using h
  | cons x xs ih =>
      rw [List.takeWhile_cons] at h
      by_cases hx : p x = true
      · rw [if_pos hx] at h
        rcases List.mem_cons.mp h with rfl | h
        · exact List.mem_cons_self _ _
        · exact List.mem_cons_of_mem _ (ih h)
      · rw [if_neg hx] at h
        simp at h

theorem pySplitParams_of_no_semi (path : List Char) (h : ∀ c ∈ path, c ≠ ';') :
    pySplitParams path = path := by
  simp only [pySplitParams]
  by_cases hc : path.contains '/' = true
  · rw [if_pos hc]
    have hns : ¬((path.reverse.takeWhile (fun c => c ≠ '/')).reverse.contains ';' = true) := by
      intro hcon
      have hm : (';' : Char) ∈ (path.reverse.takeWhile (fun c => c ≠ '/')).reverse :=
        List.elem_iff.mp hcon
      have hm2 : (';' : Char) ∈ path.reverse.takeWhile (fun c => c ≠ '/') :=
        List.mem_reverse.mp hm
      have hm3 : (';' : Char) ∈ path := List.mem_reverse.mp (mem_of_mem_takeWhile _ _ _ hm2)
      exact h ';' hm3 rfl
    rw [if_neg hns]
  · rw [if_neg hc]
    exact takeWhile_all _ _ (fun c hc => by simp [h c hc])

theorem stripScheme_https (rest : List Char) :
    stripScheme ("https:".data ++ rest) = rest := by
  have htw : ("https:".data ++ rest).takeWhile (· ≠ ':') = "https".data := by
    have hd : "https:".data = "https".data ++ [':'] := rfl
    rw [hd, List.append_assoc, takeWhile_append_all _ _ _ (by decide)]
    simp [List.takeWhile_cons]
  simp only [stripScheme]
  rw [htw]
  have hne : ¬("https".data.length = ("https:".data ++ rest).length) := by
    simp [List.length_append]
  rw [if_neg hne]
  have hd5 : "https".data = ['h', 't', 't', 'p', 's'] := rfl
  rw [hd5]
  show (if (('h' : Char).isAlpha && (['h', 't', 't', 'p', 's'] : List Char).all isSchemeChar) =
        true then
      List.drop ((['h', 't', 't', 'p', 's'] : List Char).length + 1)
        (['h', 't', 't', 'p', 's', ':'] ++ rest)
    else ['h', 't', 't', 'p', 's', ':'] ++ rest) = rest
  rw [if_pos (by decide)]
  rw [show (['h', 't', 't', 'p', 's'] : List Char).length + 1 =
      (['h', 't', 't', 'p', 's', ':'] : List Char).length from rfl]
  exact List.drop_left _ _

theorem schemeOf_https (rest : List Char) :
    schemeOf ("https:".data ++ rest) = "https".data := by
  have htw : ("https:".data ++ rest).takeWhile (· ≠ ':') = "https".data := by
    have hd : "https:".data = "https".data ++ [':'] := rfl
    rw [hd, List.append_assoc, takeWhile_append_all _ _ _ (by decide)]
    simp [List.takeWhile_cons]
  simp only [schemeOf]
  rw [htw]
  have hne : ¬("https".data.length = ("https:".data ++ rest).length) := by
    simp [List.length_append]
  rw [if_neg hne]
  have hd5 : "https".data = ['h', 't', 't', 'p', 's'] := rfl
  rw [hd5]
  show (if (('h' : Char).isAlpha && (['h', 't', 't', 'p', 's'] : List Char).all isSchemeChar) =
        true then
      (['h', 't', 't', 'p', 's'] : List Char).map Char.toLower
    else []) = "https".data
  rw [if_pos (by decide)]
  decide

theorem netlocAndPath_https (hostD rest : List Char)
    (hh : ∀ c ∈ hostD, (c ≠ '/' && c ≠ '?' && c ≠ '#') = true) :
    netlocAndPath ("https:".data ++ ('/' :: '/' :: (hostD ++ '/' :: rest))) =
      (hostD, pySplitParams (('/' :: rest).takeWhile (fun c => c ≠ '?' && c ≠ '#'))) := by
  simp only [netlocAndPath]
  rw [schemeOf_https, stripScheme_https]
  rw [if_pos (by rfl)]
  simp only [List.drop_succ_cons, List.drop_zero]
  rw [takeWhile_append_all _ _ _ hh]
  rw [show ('/' :: rest).takeWhile (fun c => c ≠ '/' && c ≠ '?' && c ≠ '#') = [] from rfl]
  simp only [List.append_nil]
  rw [List.drop_left]
  rw [if_pos (by decide)]

/-- Acceptance half of the amended claim C8: every canonical release URL
on either accepted host parses to its owner/repo and tag. -/
theorem claim_C8_accept (host owner repo tag : String)
    (hhost : host = "github.com" ∨ host = "www.github.com")
    (howner : ∀ c ∈ owner.data, urlInert c = true) (howner0 : owner ≠ "")
    (hrepo : ∀ c ∈ repo.data, urlInert c = true) (hrepo0 : repo ≠ "")
    (htag : ∀ c ∈ tag.data, urlInert c = true) (htag0 : tag ≠ "")
    (htagstrip : pyStrip tag = tag) :
    parse_release_url
        ("https://" ++ host ++ "/" ++ owner ++ "/" ++ repo ++ "/releases/tag/" ++ tag) =
      .ok (owner ++ "/" ++ repo, tag) := by
  have hof : ∀ c ∈ owner.data, c ≠ '/' := by
    intro c hc
    have := howner c hc
    simp only [urlInert, Bool.and_eq_true, decide_eq_true_eq] at this
    exact this.1.1.1.1
  have hrf : ∀ c ∈ repo.data, c ≠ '/' := by
    intro c hc
    have := hrepo c hc
    simp only [urlInert, Bool.and_eq_true, decide_eq_true_eq] at this
    exact this.1.1.1.1
  have htf : ∀ c ∈ tag.data, c ≠ '/' := by
    intro c hc
    have := htag c hc
    simp only [urlInert, Bool.and_eq_true, decide_eq_true_eq] at this
    exact this.1.1.1.1
  have hos : ∀ c ∈ owner.data, c ≠ ';' := by
    intro c hc
    have := howner c hc
    simp only [urlInert, Bool.and_eq_true, decide_eq_true_eq] at this
    exact this.2
  have hrs : ∀ c ∈ repo.data, c ≠ ';' := by
    intro c hc
    have := hrepo c hc
    simp only [urlInert, Bool.and_eq_true, decide_eq_true_eq] at this
    exact this.2
  have hts : ∀ c ∈ tag.data, c ≠ ';' := by
    intro c hc
    have := htag c hc
    simp only [urlInert, Bool.and_eq_true, decide_eq_true_eq] at this
    exact this.2
  have hdata :
      ("https://" ++ host ++ "/" ++ owner ++ "/" ++ repo ++ "/releases/tag/" ++ tag).data =
        "https:".data ++ ('/' :: '/' :: (host.data ++ '/' ::
          (owner.data ++ '/' :: (repo.data ++ '/' ::
            ("releases".data ++ '/' :: ("tag".data ++ '/' :: tag.data)))))) := by
    simp [String.data_append, List.append_assoc]
  have hop : ∀ c ∈ owner.data, (c ≠ '?' && c ≠ '#') = true := by
    intro c hc
    have := howner c hc
    simp only [urlInert, Bool.and_eq_true, decide_eq_true_eq] at this
    simp [this.1.1.1.2, this.1.1.2]
  have hrp : ∀ c ∈ repo.data, (c ≠ '?' && c ≠ '#') = true := by
    intro c hc
    have := hrepo c hc
    simp only [urlInert, Bool.and_eq_true, decide_eq_true_eq] at this
    simp [this.1.1.1.2, this.1.1.2]
  have htp : ∀ c ∈ tag.data, (c ≠ '?' && c ≠ '#') = true := by
    intro c hc
    have := htag c hc
    simp only [urlInert, Bool.and_eq_true, decide_eq_true_eq] at this
    simp [this.1.1.1.2, this.1.1.2]
  have hslash : ∀ l : List Char, ('/' :: l).takeWhile (fun c => c ≠ '?' && c ≠ '#') =
      '/' :: l.takeWhile (fun c => c ≠ '?' && c ≠ '#') := fun l => rfl
  have hcorepath :
      (owner.data ++ '/' :: (repo.data ++ '/' ::
          ("releases".data ++ '/' :: ("tag".data ++ '/' :: tag.data)))).takeWhile
        (fun c => c ≠ '?' && c ≠ '#') =
      owner.data ++ '/' :: (repo.data ++ '/' ::
          ("releases".data ++ '/' :: ("tag".data ++ '/' :: tag.data))) := by
    rw [takeWhile_append_all _ _ _ hop, hslash, takeWhile_append_all _ _ _ hrp, hslash,
      takeWhile_append_all _ _ _ (by decide), hslash,
      takeWhile_append_all _ _ _ (by decide), hslash, takeWhile_all _ _ htp]
  have hsemi : ∀ c ∈ ('/' :: (owner.data ++ '/' :: (repo.data ++ '/' ::
      ("releases".data ++ '/' :: ("tag".data ++ '/' :: tag.data))))), c ≠ ';' := by
    intro c hc
    rcases List.mem_cons.mp hc with rfl | hc
    · decide
    rcases List.mem_append.mp hc with hc | hc
    · exact hos c hc
    rcases List.mem_cons.mp hc with rfl | hc
    · decide
    rcases List.mem_append.mp hc with hc | hc
    · exact hrs c hc
    rcases List.mem_cons.mp hc with rfl | hc
    · decide
    rcases List.mem_append.mp hc with hc | hc
    · exact (show ∀ c ∈ "releases".data, c ≠ ';' from by decide) c hc
    rcases List.mem_cons.mp hc with rfl | hc
    · decide
    rcases List.mem_append.mp hc with hc | hc
    · exact (show ∀ c ∈ "tag".data, c ≠ ';' from by decide) c hc
    rcases List.mem_cons.mp hc with rfl | hc
    · decide
    exact hts c hc
  have hnet : netlocAndPath
      ("https://" ++ host ++ "/" ++ owner ++ "/" ++ repo ++ "/releases/tag/" ++ tag).data =
        (host.data, '/' :: (owner.data ++ '/' :: (repo.data ++ '/' ::
          ("releases".data ++ '/' :: ("tag".data ++ '/' :: tag.data))))) := by
    rw [hdata, netlocAndPath_https _ _ (by rcases hhost with rfl | rfl <;> decide)]
    rw [hslash, hcorepath, pySplitParams_of_no_semi _ hsemi]
  obtain ⟨oc, orest, howd⟩ : ∃ c r, owner.data = c :: r := by
    cases h : owner.data with
    | nil =>
        exfalso
        apply howner0
        have h0 : owner = ⟨owner.data⟩ := rfl
        rw [h0, h]
    | cons c r => exact ⟨c, r, rfl⟩
  obtain ⟨tc, trest, htgd⟩ : ∃ c r, tag.data.reverse = c :: r := by
    cases h : tag.data.reverse with
    | nil =>
        exfalso
        apply htag0
        have h0 : tag.data = [] := by
          have := congrArg List.reverse h
          simpa using this
        have h1 : tag = ⟨tag.data⟩ := rfl
        rw [h1, h0]
    | cons c r => exact ⟨c, r, rfl⟩
  have hocs : oc ≠ '/' := hof oc (by rw [howd]; exact List.mem_cons_self _ _)
  have htcs : tc ≠ '/' := htf tc (by
    have : tc ∈ tag.data.reverse := by rw [htgd]; exact List.mem_cons_self _ _
    exact List.mem_reverse.mp this)
  have hcore : pyStripCharL '/'
      ('/' :: (owner.data ++ '/' :: (repo.data ++ '/' ::
        ("releases".data ++ '/' :: ("tag".data ++ '/' :: tag.data))))) =
        owner.data ++ '/' :: (repo.data ++ '/' ::
          ("releases".data ++ '/' :: ("tag".data ++ '/' :: tag.data))) := by
    rw [pyStripCharL]
    rw [List.dropWhile_cons_of_pos (by simp)]
    rw [howd, List.cons_append, List.dropWhile_cons_of_neg (by simp [hocs])]
    rw [← List.cons_append, ← howd]
    have hrev : (owner.data ++ '/' :: (repo.data ++ '/' ::
        ("releases".data ++ '/' :: ("tag".data ++ '/' :: tag.data)))).reverse =
        tag.data.reverse ++ '/' :: ("tag".data.reverse ++ '/' :: ("releases".data.reverse ++
          '/' :: (repo.data.reverse ++ '/' :: owner.data.reverse))) := by
      simp [List.reverse_append, List.append_assoc]
    rw [hrev, htgd, List.cons_append, List.dropWhile_cons_of_neg (by simp [htcs])]
    rw [← List.cons_append, ← htgd, ← hrev]
    simp
  have hsplit : pySplitChar '/'
      (owner.data ++ '/' :: (repo.data ++ '/' ::
        ("releases".data ++ '/' :: ("tag".data ++ '/' :: tag.data)))) =
        [owner.data, repo.data, "releases".data, "tag".data, tag.data] := by
    rw [pySplitChar_append _ _ _ hof, pySplitChar_append _ _ _ hrf,
      pySplitChar_append _ _ _ (by decide), pySplitChar_append _ _ _ (by decide),
      pySplitChar_no_sep _ _ htf]
  have hunq : pyUnquoteL tag.data = tag.data := by
    apply pyUnquoteL_no_pct
    intro c hc
    have := htag c hc
    simp only [urlInert, Bool.and_eq_true, decide_eq_true_eq] at this
    exact this.1.2
  simp only [parse_release_url]
  rw [hnet]
  dsimp only
  rw [hcore, hsplit]
  rw [show ([owner.data, repo.data, "releases".data, "tag".data,
        tag.data] : List (List Char)).getD 0 [] = owner.data from rfl]
  rw [show ([owner.data, repo.data, "releases".data, "tag".data,
        tag.data] : List (List Char)).getD 1 [] = repo.data from rfl]
  rw [show ([owner.data, repo.data, "releases".data, "tag".data,
        tag.data] : List (List Char)).getD 2 [] = "releases".data from rfl]
  rw [show ([owner.data, repo.data, "releases".data, "tag".data,
        tag.data] : List (List Char)).drop 4 = [tag.data] from rfl]
  rw [show joinSlash [tag.data] = tag.data from rfl]
  rw [hunq]
  rw [show (⟨tag.data⟩ : String) = tag from rfl, htagstrip]
  rw [show (⟨owner.data⟩ : String) = owner from rfl,
    show (⟨repo.data⟩ : String) = repo from rfl,
    show (⟨host.data⟩ : String) = host from rfl]
  rcases hhost with rfl | rfl <;>
    simp [howner0, hrepo0, htag0]

theorem claim_C8_reject_host (url : String)
    (h : ¬((⟨(netlocAndPath url.data).1⟩ : String) = "github.com" ∨
        (⟨(netlocAndPath url.data).1⟩ : String) = "www.github.com")) :
    isOkB (parse_release_url url) = false := by
  rw [parse_release_url]
  rcases hnp : netlocAndPath url.data with ⟨netloc, path⟩
  rw [hnp] at h
  simp only at h ⊢
  rw [if_pos (by simpa using h)]
  rfl

theorem claim_C8_reject_shape (url : String)
    (hshape :
      (pySplitChar '/' (pyStripCharL '/' (netlocAndPath url.data).2)).length < 5 ∨
        (pySplitChar '/' (pyStripCharL '/' (netlocAndPath url.data).2)).getD 2 [] ≠
          "releases".data ∨
        (pySplitChar '/' (pyStripCharL '/' (netlocAndPath url.data).2)).getD 3 [] ≠
          "tag".data ∨
        (pySplitChar '/' (pyStripCharL '/' (netlocAndPath url.data).2)).getD 0 [] = [] ∨
        (pySplitChar '/' (pyStripCharL '/' (netlocAndPath url.data).2)).getD 1 [] = [] ∨
        pyStrip ⟨pyUnquoteL (joinSlash
          ((pySplitChar '/' (pyStripCharL '/' (netlocAndPath url.data).2)).drop 4))⟩ = "") :
    isOkB (parse_release_url url) = false := by
  rw [parse_release_url]
  rcases hnp : netlocAndPath url.data with ⟨netloc, path⟩
  rw [hnp] at hshape
  simp only at hshape ⊢
  by_cases hhost : !((⟨netloc⟩ : String) = "github.com" ||
      (⟨netloc⟩ : String) = "www.github.com")
  · rw [if_pos hhost]
    rfl
  · rw [if_neg hhost]
    by_cases hbad : (pySplitChar '/' (pyStripCharL '/' path)).length < 5 ||
        !((pySplitChar '/' (pyStripCharL '/' path)).getD 2 [] = "releases".data) ||
        !((pySplitChar '/' (pyStripCharL '/' path)).getD 3 [] = "tag".data)
    · rw [if_pos hbad]
      rfl
    · rw [if_neg hbad]
      have hrest : ((⟨(pySplitChar '/' (pyStripCharL '/' path)).getD 0 []⟩ : String) = "" ||
          (⟨(pySplitChar '/' (pyStripCharL '/' path)).getD 1 []⟩ : String) = "" ||
          pyStrip ⟨pyUnquoteL (joinSlash
            ((pySplitChar '/' (pyStripCharL '/' path)).drop 4))⟩ = "") = true := by
        simp only [Bool.or_eq_true, Bool.not_or, Bool.and_eq_true, Bool.not_eq_true',
          decide_eq_false_iff_not, decide_eq_true_eq] at hbad hshape ⊢
        push_neg at hbad
        rcases hshape with h5 | hr | ht | h0 | h1 | he
        · omega
        · exact absurd hbad.1.2 hr
        · exact absurd hbad.2 ht
        · left; left
          have h00 : (pySplitChar '/' (pyStripCharL '/' path)).getD 0 [] =
              ("" : String).data := h0
          exact (congrArg String.mk h00).trans rfl
        · left; right
          have h11 : (pySplitChar '/' (pyStripCharL '/' path)).getD 1 [] =
              ("" : String).data := h1
          exact (congrArg String.mk h11).trans rfl
        · right; exact he
      rw [if_pos hrest]
      rfl

/-- Counterexample to claim C5 as stated: a five-bullet override list is
returned verbatim, so the result is not capped at 4 bullets. -/
theorem claim_C5_ce :
    build_highlights "v1.0.0" "irrelevant" ["a", "b", "c", "d", "e"] =
        ["a", "b", "c", "d", "e"] ∧
      ¬(build_highlights "v1.0.0" "irrelevant" ["a", "b", "c", "d", "e"]).length ≤ 4 :=
  ⟨rfl, by decide⟩

/-- Claim C5 (amended): a non-empty override-bullet list is returned
verbatim by `build_highlights`, with no classification and no cap; when no
override bullets are supplied the result has length at most 4. -/
theorem claim_C5_amended (tag changelog : String) (ov : List String) :
    (ov ≠ [] → build_highlights tag changelog ov = ov) ∧
      (ov = [] → (build_highlights tag changelog ov).length ≤ 4) := by
  constructor
  · intro h
    simp [build_highlights, List.isEmpty_iff, h]
  · intro h
    subst h
    simp only [build_highlights, List.isEmpty_nil, Bool.not_true, Bool.false_eq_true,
      if_false]
    by_cases ht : (extract_pr_titles changelog).isEmpty
    · simp [ht]
    · simp only [ht, Bool.false_eq_true, if_false]
      exact List.length_take_le _ _

/-- Closed instantiation of claim C5 (amended): override bullets pass
through verbatim, and a classified result respects the cap. -/
theorem claim_C5_witness :
    build_highlights "v1" "log" ["x"] = ["x"] ∧
      (build_highlights "v1" "" []).length ≤ 4 :=
  ⟨(claim_C5_amended "v1" "log" ["x"]).1 (by decide),
   (claim_C5_amended "v1" "" []).2 rfl⟩

theorem setdefaultAppend_ne_nil (m : List (String × List String)) (k v : String) :
    setdefaultAppend m k v ≠ [] := by
  cases m with
  | nil => simp [setdefaultAppend]
  | cons e rest =>
      rcases e with ⟨k', vs⟩
      by_cases h : k' = k <;> simp [setdefaultAppend, h]

theorem foldl_setdefault_ne_nil (ts : List String) :
    ∀ m : List (String × List String), m ≠ [] →
      ts.foldl (fun m t => setdefaultAppend m (classify_title t) t) m ≠ [] := by
  induction ts with
  | nil => intro m h; simpa using h
  | cons t ts ih =>
      intro m _
      simp only [List.foldl_cons]
      exact ih _ (setdefaultAppend_ne_nil m (classify_title t) t)

theorem setdefaultAppend_values_ne_nil (m : List (String × List String)) (k v : String)
    (h : ∀ e ∈ m, e.2 ≠ []) : ∀ e ∈ setdefaultAppend m k v, e.2 ≠ [] := by
  induction m with
  | nil =>
      intro e he
      simp only [setdefaultAppend, List.mem_singleton] at he
      subst he
      simp
  | cons e0 rest ih =>
      rcases e0 with ⟨k', vs⟩
      intro e he
      by_cases hk : k' = k
      · simp only [setdefaultAppend, hk, if_true] at he
        rcases List.mem_cons.mp he with h1 | h2
        · subst h1; simp
        · exact h e (List.mem_cons_of_mem _ h2)
      · simp only [setdefaultAppend, hk, if_false] at he
        rcases List.mem_cons.mp he with h1 | h2
        · subst h1
          exact h (k', vs) (List.mem_cons_self _ _)
        · exact ih (fun e' he' => h e' (List.mem_cons_of_mem _ he')) e h2

theorem foldl_setdefault_values_ne_nil (ts : List String) :
    ∀ m : List (String × List String), (∀ e ∈ m, e.2 ≠ []) →
      ∀ e ∈ ts.foldl (fun m t => setdefaultAppend m (classify_title t) t) m, e.2 ≠ [] := by
  induction ts with
  | nil => intro m h; simpa using h
  | cons t ts ih =>
      intro m h
      simp only [List.foldl_cons]
      exact ih _ (setdefaultAppend_values_ne_nil m (classify_title t) t h)

theorem groupBullets_ne_nil (kg : String × List String) (h : kg.2 ≠ []) :
    groupBullets kg ≠ [] := by
  unfold groupBullets
  by_cases h1 : kg.1 = "renovate"
  · simp [h1]
  · by_cases h2 : kg.1 = "dependencies"
    · simp [h1, h2]
    · by_cases h3 : kg.1 = "release"
      · simp [h1, h2, h3]
      · simp [h1, h2, h3, h]

/-- Claim C10: `build_highlights` always returns a non-empty list; with no
override bullets and a changelog yielding no PR titles it returns exactly
the single fallback bullet referencing the tag, and consequently the
Highlights section of `render_body` always carries at least one bullet
line. -/
theorem claim_C10 (tag changelog : String) (ov : List String) :
    build_highlights tag changelog ov ≠ [] ∧
      (ov = [] → extract_pr_titles changelog = [] →
        build_highlights tag changelog ov =
          ["Release `" ++ tag ++ "` includes updates described in the full changelog below."]) ∧
      (∀ pages_url image_ghcr image_dockerhub install_image_tag install_image_digest,
        ∃ b, b ∈ build_highlights tag changelog ov ∧
          ("- " ++ b) ∈ render_body_lines tag pages_url image_ghcr image_dockerhub
            install_image_tag install_image_digest changelog ov) := by
  have hne : build_highlights tag changelog ov ≠ [] := by
    by_cases hov : ov.isEmpty
    · have hov' : ov = [] := List.isEmpty_iff.mp hov
      subst hov'
      simp only [build_highlights, List.isEmpty_nil, Bool.not_true, Bool.false_eq_true,
        if_false]
      by_cases ht : (extract_pr_titles changelog).isEmpty
      · simp [ht]
      · simp only [ht, Bool.false_eq_true, if_false]
        have htne : extract_pr_titles changelog ≠ [] := by
          intro hx
          rw [hx] at ht
          simp at ht
        obtain ⟨t0, ts0, hts⟩ := List.exists_cons_of_ne_nil htne
        have hgne : (extract_pr_titles changelog).foldl
            (fun m t => setdefaultAppend m (classify_title t) t) [] ≠ [] := by
          rw [hts]
          simp only [List.foldl_cons]
          exact foldl_setdefault_ne_nil ts0 _
            (setdefaultAppend_ne_nil [] (classify_title t0) t0)
        have hgv := foldl_setdefault_values_ne_nil (extract_pr_titles changelog) []
          (by simp)
        obtain ⟨g0, gs0, hgs⟩ := List.exists_cons_of_ne_nil hgne
        intro hflat
        rcases List.take_eq_nil_iff.mp hflat with h4 | hfl
        · cases h4
        · have : groupBullets g0 = [] := by
            have := List.flatten_eq_nil_iff.mp hfl (groupBullets g0)
            exact this (by rw [hgs]; simp)
          exact groupBullets_ne_nil g0 (hgv g0 (by rw [hgs]; simp)) this
    · have hov' : ov ≠ [] := by
        intro hx
        rw [hx] at hov
        simp at hov
      simp [build_highlights, hov, hov']
  refine ⟨hne, ?_, ?_⟩
  · intro h1 h2
    subst h1
    simp [build_highlights, h2]
  · intro pages_url image_ghcr image_dockerhub install_image_tag install_image_digest
    obtain ⟨b, hb⟩ := List.exists_mem_of_ne_nil _ hne
    refine ⟨b, hb, ?_⟩
    have hm : ("- " ++ b) ∈ (build_highlights tag changelog ov).map
        (fun line => "- " ++ line) := List.mem_map_of_mem _ hb
    rw [render_body_lines]
    simp only [List.mem_append]
    tauto

/-- Closed instantiation of claim C10: the fallback bullet on an empty
changelog. -/
theorem claim_C10_witness :
    build_highlights "v2.0" "" [] =
      ["Release `v2.0` includes updates described in the full changelog below."] :=
  (claim_C10 "v2.0" "" []).2.1 rfl (by decide)

/-- Closed instantiation of claim C3 on the fixture release list. -/
theorem claim_C3_witness :
    select_previous_release_tag
        [⟨false, some "v1.3.0"⟩, ⟨false, some "v1.2.0"⟩, ⟨false, some "v1.1.0"⟩]
        "v1.2.0" = some "v1.1.0" ∧
      select_previous_release_tag
        [⟨false, some "v1.3.0"⟩, ⟨false, some "v1.2.0"⟩, ⟨false, some "v1.1.0"⟩]
        "v9.9.9" = some "v1.3.0" :=
  ⟨(claim_C3 _ "v1.2.0").1 ["v1.3.0"] "v1.1.0" [] (by decide) (by decide),
   by
    rw [(claim_C3 _ "v9.9.9").2.2 (by decide)]
    decide⟩

end Coder
